import Mathlib

/-!
Verification of the scheduling core of the `scheduler_app` repository.

The development shallowly embeds the two scheduling engines of the
repository:

* `Sched` embeds `src/scheduler.py` together with its data model
  `src/data_models.py` (the interactive candidate-ranking engine);
* `GenVac` embeds `src/generate_vacations.py` (the randomized rotation
  generator and its slack-filling post pass).

Modelling conventions, used consistently below:

* Python `float` values (scores, hours, multipliers) are modelled by the
  executable fraction type `Frac` (an integer numerator over a positive
  natural denominator); comparisons are cross-multiplication, so every
  comparison the Python code performs on floats is decidable here.
  `Frac.val` maps a fraction to `ℚ` and is used only in proofs.
* Python `datetime` values are fractions counting hours from a fixed
  epoch; `.date()` is floor division by 24.  Python `date` values are
  integers counting days from the same epoch; day number `0` is chosen
  to be a Monday, so Python's `weekday()` is `emod 7`.
* Python strings are Lean `String`s.  Where the Python code attempts to
  parse a string (`float(...)`, `date.fromisoformat(...)`), the string
  is modelled by `PyStr`, a string carried together with the outcome of
  those two parses (`none` models a `ValueError`).
* Python dicts keyed by insertion order are association lists; Python
  dicts used as per-key counters are Lean functions updated pointwise.
* Python's stable `list.sort(key=...)` is `stableSortBy lt`, a stable
  insertion sort taking the strict "key is smaller" test.
* The `random.random()` stream of the rotation generator is an explicit
  oracle `rng : Nat → Frac`, consumed one draw per scored candidate.
* Fallible Python code (the `TypeError` raised by the validity check of
  `attempt_generate` when a requirement count is a per-weekday list) is
  modelled in `Except String`.
-/

/-! ## Stable sorting (model of Python `list.sort`) -/

def sInsert (lt : α → α → Bool) (a : α) : List α → List α
  | [] => [a]
  | b :: l => if lt a b then a :: b :: l else b :: sInsert lt a l

def stableSortBy (lt : α → α → Bool) (l : List α) : List α :=
  l.foldl (fun acc x => sInsert lt x acc) []

/-! ## Strings: lowercase and substring test (Python `str.lower`, `in`) -/

def strLower (s : String) : String := s.map Char.toLower

def charsPrefix : List Char → List Char → Bool
  | [], _ => true
  | _ :: _, [] => false
  | a :: as, b :: bs => a == b && charsPrefix as bs

def charsSub (xs : List Char) : List Char → Bool
  | [] => charsPrefix xs []
  | b :: bs => charsPrefix xs (b :: bs) || charsSub xs bs

/-- Python `needle in hay` on strings. -/
def strContains (hay needle : String) : Bool := charsSub needle.toList hay.toList

/-! ## Fractions: executable model of Python floats -/

structure Frac where
  num : Int
  den : ℕ+
deriving DecidableEq

namespace Frac

def ofInt (n : Int) : Frac := ⟨n, 1⟩

def add (a b : Frac) : Frac := ⟨a.num * (b.den : ℕ) + b.num * (a.den : ℕ), a.den * b.den⟩

def sub (a b : Frac) : Frac := ⟨a.num * (b.den : ℕ) - b.num * (a.den : ℕ), a.den * b.den⟩

def mul (a b : Frac) : Frac := ⟨a.num * b.num, a.den * b.den⟩

/-- Division by a positive natural number (the only division the embedded
code performs). -/
def divPNat (a : Frac) (n : ℕ+) : Frac := ⟨a.num, a.den * n⟩

/-- Division by a natural number; division by `0` would be a Python
`ZeroDivisionError` and is unreachable at every call site (each one is
guarded), so it is modelled as the identity. -/
def divNat (a : Frac) : Nat → Frac
  | 0 => a
  | n + 1 => a.divPNat ⟨n + 1, Nat.succ_pos n⟩

def leB (a b : Frac) : Bool := a.num * ((b.den : ℕ) : Int) ≤ b.num * ((a.den : ℕ) : Int)

def ltB (a b : Frac) : Bool := a.num * ((b.den : ℕ) : Int) < b.num * ((a.den : ℕ) : Int)

def eqB (a b : Frac) : Bool := a.num * ((b.den : ℕ) : Int) == b.num * ((a.den : ℕ) : Int)

/-- Python `min(x, y)`: returns `y` exactly when `y < x`. -/
def pymin (a b : Frac) : Frac := if ltB b a then b else a

/-- Python `max(x, y)`: returns `y` exactly when `x < y`. -/
def pymax (a b : Frac) : Frac := if ltB a b then b else a

/-- Semantic value of a fraction, used only in proofs. -/
def val (a : Frac) : ℚ := (a.num : ℚ) / ((a.den : ℕ) : ℚ)

instance : Add Frac := ⟨add⟩
instance : Sub Frac := ⟨sub⟩
instance : Mul Frac := ⟨mul⟩

instance : OfNat Frac n := ⟨ofInt n⟩

end Frac

/-! # `Sched`: embedding of `src/data_models.py` and `src/scheduler.py` -/

namespace Sched

/-- A Python string together with the outcome of `float(s)` (`asFloat`) and
of `datetime.date.fromisoformat(s)` (`asDate`); `none` models a
`ValueError` raised by the corresponding parse. -/
structure PyStr where
  s : String
  asFloat : Option Frac := none
  asDate : Option Int := none
deriving DecidableEq

/-- `datetime.date()`: hours-from-epoch down to days-from-epoch. -/
def dateOf (t : Frac) : Int := Int.fdiv t.num (((t.den : ℕ) : Int) * 24)

/-- Python `date.weekday()` (Monday = 0); day number 0 is a Monday. -/
def pyWeekday (d : Int) : Int := d.emod 7

structure Person where
  person_id : String
  name : String
  phone_number : String
  role : String
  unit : String
  secondary_roles : List String
deriving DecidableEq

def Person.can_fill_role (p : Person) (role : String) : Bool :=
  p.role == role || p.secondary_roles.contains role

structure Vacation where
  person_id : String
  date : Int
  description : String
deriving DecidableEq

structure Preference where
  person_id : String
  type : String
  target : PyStr
  priority : String
  expires : Option Int
deriving DecidableEq

def Preference.is_active (p : Preference) (on_date : Int) : Bool :=
  match p.expires with
  | none => true
  | some e => on_date ≤ e

def Preference.priority_weight (p : Preference) : Frac :=
  if p.priority == "low" then ⟨1, 2⟩
  else if p.priority == "medium" then Frac.ofInt 1
  else if p.priority == "high" then Frac.ofInt 2
  else Frac.ofInt 1

structure Mission where
  mission_id : String
  name : String
  start : Frac
  end_ : Frac
  roles_required : List (String × Int)
  status : String
  assignments : List (String × List String)
  continuous : Bool
deriving DecidableEq

def Mission.duration_hours (m : Mission) : Frac := m.end_ - m.start

/-- The list `mission.assignments[role]`, `[]` when the key is absent. -/
def Mission.roleList (m : Mission) (role : String) : List String :=
  match m.assignments.find? (fun rp => rp.1 == role) with
  | some rp => rp.2
  | none => []

/-- The association-list update performed by `Mission.assign_person` on an
existing key: append `pid` to every list stored under `role` that does not
already contain it. -/
def addToRoleLists (role pid : String) (l : List (String × List String)) :
    List (String × List String) :=
  l.map (fun rp =>
    if rp.1 == role then (rp.1, if rp.2.contains pid then rp.2 else rp.2 ++ [pid]) else rp)

def hasRoleKey (l : List (String × List String)) (role : String) : Bool :=
  (l.find? (fun rp => rp.1 == role)).isSome

def Mission.assign_person (m : Mission) (role pid : String) : Mission :=
  if hasRoleKey m.assignments role then
    { m with assignments := addToRoleLists role pid m.assignments }
  else
    { m with assignments := m.assignments ++ [(role, [pid])] }

def Mission.all_assigned_people (m : Mission) : List String :=
  m.assignments.foldl (fun acc rp => acc ++ rp.2) []

structure Campaign where
  name : String
  start_date : Int
  end_date : Int
  on_duty_estimates : List (String × Int)
  rest_cap_hours : Int
deriving DecidableEq

structure PersonState where
  person : Person
  missions_assigned : List Mission
deriving DecidableEq

def PersonState.total_hours (st : PersonState) : Frac :=
  st.missions_assigned.foldl (fun acc m => acc + m.duration_hours) (Frac.ofInt 0)

def PersonState.mission_count (st : PersonState) : Int := st.missions_assigned.length

def PersonState.last_mission_end (st : PersonState) : Option Frac :=
  match st.missions_assigned with
  | [] => none
  | m :: ms => some (ms.foldl (fun acc x => Frac.pymax acc x.end_) m.end_)

def PersonState.is_assigned_to (st : PersonState) (m : Mission) : Bool :=
  st.missions_assigned.any (fun x => x.mission_id == m.mission_id)

structure CandidateScore where
  person : Person
  total_score : Frac
  vacation_penalty : Frac
  fairness_score : Frac
  preference_score : Frac
  unit_cohesion : Frac
  role_match : Frac
deriving DecidableEq

/-- The `Scheduler` object after `__init__` has built its indices: `states`
is the value list of the `self.states` dict (insertion order, keyed by
`person_id`, so the ids of distinct entries are the distinct dict keys). -/
structure Scheduler where
  people : List Person
  campaign : Campaign
  vacations : List Vacation
  preferences : List Preference
  states : List PersonState
deriving DecidableEq

/-- `self.preferences[person_id]` (the `defaultdict(list)` index preserves
input order per person). -/
def Scheduler.prefsOf (s : Scheduler) (pid : String) : List Preference :=
  s.preferences.filter (fun p => p.person_id == pid)

def Scheduler.is_on_vacation (s : Scheduler) (pid : String) (d : Int) : Bool :=
  s.vacations.any (fun v => v.person_id == pid && v.date == d)

def Scheduler.vacation_count (s : Scheduler) (pid : String) : Nat :=
  s.vacations.countP (fun v => v.person_id == pid)

/-- The loop body of `Scheduler.get_rest_multiplier`: the first active
`rest_multiplier` preference whose target parses as a float wins; a
`ValueError` (`asFloat = none`) falls through to the next preference. -/
def restMultLoop (d : Int) : List Preference → Option Frac
  | [] => none
  | p :: ps =>
    if p.type == "rest_multiplier" && p.is_active d then
      match p.target.asFloat with
      | some q => some q
      | none => restMultLoop d ps
    else restMultLoop d ps

def Scheduler.get_rest_multiplier (s : Scheduler) (pid : String) (d : Int) : Frac :=
  match restMultLoop d (s.prefsOf pid) with
  | some q => q
  | none => Frac.ofInt 1

/-- The loop body of `Scheduler.has_must_vacation`: an active
`must_vacation_date` preference returns `True` only when its target parses
and equals the queried date; parse failures and mismatches fall through. -/
def mustVacLoop (d : Int) : List Preference → Bool
  | [] => false
  | p :: ps =>
    if p.type == "must_vacation_date" && p.is_active d then
      match p.target.asDate with
      | some pd => if pd == d then true else mustVacLoop d ps
      | none => mustVacLoop d ps
    else mustVacLoop d ps

def Scheduler.has_must_vacation (s : Scheduler) (pid : String) (d : Int) : Bool :=
  mustVacLoop d (s.prefsOf pid)

def Scheduler.has_overlap (_s : Scheduler) (st : PersonState) (m : Mission) : Bool :=
  st.missions_assigned.any (fun assigned =>
    !(Frac.leB m.end_ assigned.start || Frac.leB assigned.end_ m.start))

def Scheduler.has_enough_rest (s : Scheduler) (st : PersonState) (m : Mission) : Bool :=
  match st.last_mission_end with
  | none => true
  | some last_end =>
    match st.missions_assigned.find? (fun mm => Frac.eqB mm.end_ last_end) with
    | none => true
    | some last_mission =>
      let rest_multiplier := s.get_rest_multiplier st.person.person_id (dateOf m.start)
      let mission_duration := last_mission.duration_hours
      let rest_needed :=
        (Frac.pymin mission_duration (Frac.ofInt s.campaign.rest_cap_hours)).mul rest_multiplier
      Frac.leB (last_end.add rest_needed) m.start

def VACATION_PENALTY : Frac := Frac.ofInt 10000

def get_ratio (s : Scheduler) (st : PersonState) : Frac :=
  st.total_hours.divNat (s.vacation_count st.person.person_id + 1)

def Scheduler.calculate_fairness (s : Scheduler) (st : PersonState) (role : String) : Frac :=
  let role_states := s.states.filter (fun x => x.person.role == role)
  if role_states.length ≤ 1 then Frac.ofInt 0
  else
    let ratios := role_states.map (fun x => get_ratio s x)
    let avg_ratio := (ratios.foldl Frac.add (Frac.ofInt 0)).divNat ratios.length
    let person_ratio := get_ratio s st
    (Frac.pymax (Frac.ofInt 0) (avg_ratio.sub person_ratio)).mul (Frac.ofInt 10)

def Scheduler.calculate_preference_score (s : Scheduler) (st : PersonState)
    (m : Mission) (already_assigned : List String) : Frac :=
  let mission_date := dateOf m.start
  (s.prefsOf st.person.person_id).foldl
    (fun score pref =>
      if !(pref.is_active mission_date) then score
      else
        let weight := pref.priority_weight
        if pref.type == "pair_with" then
          if already_assigned.contains pref.target.s then
            score.sub ((Frac.ofInt 20).mul weight)
          else score
        else if pref.type == "avoid_person" then
          if already_assigned.contains pref.target.s then
            score.add ((Frac.ofInt 50).mul weight)
          else score
        else if pref.type == "prefer_mission" then
          if strContains (strLower m.name) (strLower pref.target.s) then
            score.sub ((Frac.ofInt 15).mul weight)
          else score
        else if pref.type == "avoid_mission" then
          if strContains (strLower m.name) (strLower pref.target.s) then
            score.add ((Frac.ofInt 30).mul weight)
          else score
        else if pref.type == "prefer_weekend" then
          if pyWeekday mission_date ≥ 5 then score.sub ((Frac.ofInt 10).mul weight)
          else score
        else if pref.type == "prefer_weekday" then
          if pyWeekday mission_date < 5 then score.sub ((Frac.ofInt 10).mul weight)
          else score
        else score)
    (Frac.ofInt 0)

def Scheduler.calculate_score (s : Scheduler) (st : PersonState) (m : Mission)
    (role : String) (already_assigned : List String) : CandidateScore :=
  let person := st.person
  let mission_date := dateOf m.start
  let vacation_penalty :=
    if s.is_on_vacation person.person_id mission_date then VACATION_PENALTY
    else Frac.ofInt 0
  let fairness_score := s.calculate_fairness st person.role
  let preference_score := s.calculate_preference_score st m already_assigned
  let unit_cohesion :=
    if already_assigned ≠ [] then
      let same_unit := already_assigned.countP (fun pid =>
        match s.people.find? (fun p => p.person_id == pid) with
        | some p => p.unit == person.unit
        | none => false)
      if same_unit == 0 then Frac.ofInt 5 else Frac.ofInt 0
    else Frac.ofInt 0
  let role_match := if person.role ≠ role then Frac.ofInt 10 else Frac.ofInt 0
  let total_score :=
    (((vacation_penalty.add fairness_score).add preference_score).add unit_cohesion).add
      role_match
  ⟨person, total_score, vacation_penalty, fairness_score, preference_score, unit_cohesion,
    role_match⟩

/-- The five hard filters of `Scheduler.get_candidates`, in source order. -/
def Scheduler.passes_filters (s : Scheduler) (m : Mission) (role : String)
    (already_assigned : List String) (st : PersonState) : Bool :=
  st.person.can_fill_role role
    && !(already_assigned.contains st.person.person_id)
    && !(s.has_must_vacation st.person.person_id (dateOf m.start))
    && !(s.has_overlap st m)
    && s.has_enough_rest st m

/-- The sort key comparison of `get_candidates`:
`candidates.sort(key=lambda c: (c.total_score, c.person.person_id))`,
i.e. the strict lexicographic order on (score, id). -/
def candLt (c d : CandidateScore) : Bool :=
  Frac.ltB c.total_score d.total_score
    || (Frac.eqB c.total_score d.total_score
        && decide (c.person.person_id < d.person.person_id))

def Scheduler.get_candidates (s : Scheduler) (m : Mission) (role : String)
    (already_assigned : List String) : List CandidateScore :=
  stableSortBy candLt
    ((s.states.filter (s.passes_filters m role already_assigned)).map
      (fun st => s.calculate_score st m role already_assigned))

def Scheduler.assign_to_mission (s : Scheduler) (m : Mission) (role pid : String) :
    Mission × Scheduler :=
  let m' := m.assign_person role pid
  (m',
    { s with
      states := s.states.map (fun st =>
        if st.person.person_id == pid && !(st.is_assigned_to m') then
          { st with missions_assigned := st.missions_assigned ++ [m'] }
        else st) })

/-! Commit sequences and the overlap invariant (for the claims about
`assign_to_mission`). -/

structure CommitCmd where
  mission : Mission
  role : String
  pid : String
deriving DecidableEq

def applyCommit (s : Scheduler) (c : CommitCmd) : Scheduler :=
  (s.assign_to_mission c.mission c.role c.pid).2

def runCommits (s : Scheduler) : List CommitCmd → Scheduler
  | [] => s
  | c :: cs => runCommits (applyCommit s c) cs

/-- The half-open-interval overlap test of `Scheduler._has_overlap`, as a
symmetric test on two missions. -/
def overlapsB (m a : Mission) : Bool :=
  !(Frac.leB m.end_ a.start || Frac.leB a.end_ m.start)

def pairwiseFreeB : List Mission → Bool
  | [] => true
  | a :: l => l.all (fun b => !(overlapsB a b)) && pairwiseFreeB l

/-- No person's assigned-mission list contains two overlapping missions. -/
def no_overlaps (s : Scheduler) : Bool :=
  s.states.all (fun st => pairwiseFreeB st.missions_assigned)

/-- A commit sequence in which every commit passes the overlap hard filter
(for the committed person, at commit time) before being applied.  This is
the guard under which the spec's overlap invariant actually holds. -/
def guardedSeq : Scheduler → List CommitCmd → Prop
  | _, [] => True
  | s, c :: cs =>
    (∀ st ∈ s.states, st.person.person_id = c.pid → s.has_overlap st c.mission = false) ∧
      guardedSeq (applyCommit s c) cs

end Sched

/-! # `GenVac`: embedding of `src/generate_vacations.py` -/

namespace GenVac

/-- Python `date.weekday()` (Monday = 0); day number 0 is a Monday.
Dates (`yyyy-mm-dd` strings in the source) are day numbers; equal strings
are equal numbers and `strftime`/`strptime` are the identity. -/
def weekday (d : Int) : Int := d.emod 7

/-- The textual form of a day number (stands for `strftime("%Y-%m-%d")`);
injective, used only to build shift ids. -/
def dstr (d : Int) : String := toString d

structure Pref where
  ptype : String
  ptarget : String
deriving DecidableEq

structure Person where
  id : String
  name : String
  roles : List String
  unit : Option String
  unavailable_dates : List Int
  preferences : List Pref
deriving DecidableEq

/-- `ShiftRequirement.count : Union[int, List[int]]`. -/
inductive ReqCount where
  | int (n : Int)
  | weekly (l : List Int)
deriving DecidableEq

structure ShiftRequirement where
  role : String
  count : ReqCount
deriving DecidableEq

structure Shift where
  id : String
  date : Int
  role : String
  person_id : String
deriving DecidableEq

/-- Python `int < count` where `count` may be an int or a list: comparing
an int against a list raises `TypeError`. -/
def pyLtCount (n : Int) (c : ReqCount) : Except String Bool :=
  match c with
  | .int m => .ok (decide (n < m))
  | .weekly _ => .error "TypeError"

/-- Python `count += boost` where `count` may be an int or a list: adding
an int to a list raises `TypeError`. -/
def pyAddCount (c : ReqCount) (b : Int) : Except String ReqCount :=
  match c with
  | .int m => .ok (.int (m + b))
  | .weekly _ => .error "TypeError"

/-- Python truthiness of `person.unit` (an `Optional[str]`). -/
def unitTruthy : Option String → Bool
  | none => false
  | some u => u != ""

/-- The local state a single trial of `attempt_generate` threads through
its day loop.  The per-person dicts are total functions (the Python dicts
are keyed by the people's ids and only ever read at those keys). -/
structure TrialState where
  shifts : List Shift
  shift_counts : String → Int
  last_shift_date : String → Option Int
  work_streaks : String → Int
  role_counts : String → String → Int
  rng_idx : Nat

def initState : TrialState :=
  ⟨[], fun _ => 0, fun _ => none, fun _ => 0, fun _ _ => 0, 0⟩

def upd (f : String → α) (k : String) (v : α) : String → α :=
  fun x => if x = k then v else f x

def upd2 (f : String → String → Int) (k1 k2 : String) (v : Int) :
    String → String → Int :=
  fun x y => if x = k1 ∧ y = k2 then v else f x y

/-- The role-name heuristic of the ALAT branch. -/
def alatRoleName (p : Person) : String :=
  match p.roles.find? (fun r =>
      ["commander", "officer", "medic", "driver", "mp", "rsp"].contains (strLower r)) with
  | some r => r
  | none =>
    if p.roles.contains "soldier" then "soldier"
    else
      match p.roles with
      | r :: _ => r
      | [] => "on_duty"

/-- One ALAT assignment: create the shift and update the per-person state. -/
def alatAssign (day : Int) (st : TrialState) (p : Person) : TrialState :=
  let r := alatRoleName p
  { shifts := st.shifts ++ [⟨dstr day ++ "-" ++ r ++ "-alat-" ++ p.id, day, r, p.id⟩]
    shift_counts := upd st.shift_counts p.id (st.shift_counts p.id + 1)
    last_shift_date := upd st.last_shift_date p.id (some day)
    work_streaks := upd st.work_streaks p.id (st.work_streaks p.id + 1)
    role_counts := upd2 st.role_counts p.id r (st.role_counts p.id r + 1)
    rng_idx := st.rng_idx }

/-- The ALAT branch: every available person works, bypassing scoring. -/
def alatDay (people : List Person) (day : Int) (st : TrialState) : TrialState :=
  (people.filter (fun p => !(p.unavailable_dates.contains day))).foldl (alatAssign day) st

/-- The terminal-day branch: copy yesterday's shifts onto the last day. -/
def copyDay (day : Int) (st : TrialState) : TrialState :=
  let yesterday_shifts := st.shifts.filter (fun s => s.date == day - 1)
  yesterday_shifts.foldl
    (fun acc prev =>
      { shifts := acc.shifts ++
          [⟨dstr day ++ "-" ++ prev.role ++ "-copy-" ++ prev.person_id, day, prev.role,
            prev.person_id⟩]
        shift_counts := upd acc.shift_counts prev.person_id
          (acc.shift_counts prev.person_id + 1)
        last_shift_date := upd acc.last_shift_date prev.person_id (some day)
        work_streaks := upd acc.work_streaks prev.person_id
          (acc.work_streaks prev.person_id + 1)
        role_counts := upd2 acc.role_counts prev.person_id prev.role
          (acc.role_counts prev.person_id prev.role + 1)
        rng_idx := acc.rng_idx })
    st

structure DailyReq where
  role : String
  total : Int
  remaining : Int
  rarity : Int
deriving DecidableEq

/-- Per-day needed headcount from a requirement count.  An empty weekly
list would raise `IndexError` in the source (`req.count[0]`); that
malformed input is modelled as 0. -/
def neededFor (rc : ReqCount) (day : Int) : Int :=
  match rc with
  | .int n => n
  | .weekly l =>
    let idx := (weekday day).toNat
    if idx < l.length then l.getD idx 0 else l.getD 0 0

def mkDailyReqs (people : List Person) (requirements : List ShiftRequirement)
    (day : Int) (boost : Int) (boost_dates : List Int) : List DailyReq :=
  let base := requirements.map (fun req =>
    let qualified_count : Int := (people.filter (fun p => p.roles.contains req.role)).length
    let needed0 := neededFor req.count day
    let needed :=
      if req.role == "total_soldiers" && boost > 0 && boost_dates.contains day then
        needed0 + boost
      else needed0
    (⟨req.role, needed, needed, qualified_count⟩ : DailyReq))
  stableSortBy (fun a b => decide (a.rarity < b.rarity)) base

/-- The per-day mutable state of the normal-generation `while` loop. -/
structure DayState where
  shifts : List Shift
  shift_counts : String → Int
  last_shift_date : String → Option Int
  work_streaks : String → Int
  role_counts : String → String → Int
  rng_idx : Nat
  reqs : List DailyReq
  assigned_today : List String
  assigned_units_today : List String

/-- The per-day immutable context of the normal-generation loop. -/
structure DayCtx where
  days : List Int
  day : Int
  alat_end : Option Int
  rng : Nat → Frac
  available : List Person

/-- The candidate score of the normal-generation loop (lower is better).
`jitter` is the `random.random()` draw for this candidate. -/
def scoreOf (ctx : DayCtx) (ds : DayState) (p : Person) (role : String) (jitter : Frac) :
    Frac :=
  let is_saturday := weekday ctx.day == 5
  let current_total := ds.shift_counts p.id
  let streak := ds.work_streaks p.id
  let last_date := ds.last_shift_date p.id
  let days_since : Int :=
    match last_date with
    | some ld => ctx.day - ld
    | none => 999
  let worked_yesterday :=
    match last_date with
    | some _ => days_since == 1
    | none => false
  let projected_total :=
    current_total +
      (if ctx.days.length ≥ 2 ∧ ctx.days.getD (ctx.days.length - 2) 0 = ctx.day then 1
       else 0)
  let score := Frac.ofInt (projected_total ^ 8 * 1000000)
  let score := score.sub (Frac.ofInt ((p.unavailable_dates.length : Int) * 5000000))
  let score := score.add (jitter.mul (Frac.ofInt 1000))
  let prefAdj : Int :=
    (p.preferences.map (fun pr =>
        if pr.ptype == "prefer_weekend" then
          (if is_saturday then 5000000 else -100000)
        else if pr.ptype == "prefer_weekday" then
          (if is_saturday then -5000000 else 100000)
        else 0)).foldl (· + ·) 0
  let score := score.add (Frac.ofInt prefAdj)
  let score :=
    if is_saturday then
      if worked_yesterday then score.sub (Frac.ofInt 10000000)
      else score.add (Frac.ofInt 10000000)
    else score
  let score :=
    if !worked_yesterday then
      let score := if days_since < 3 then score.add (Frac.ofInt 500000) else score
      let score := if days_since == 2 then score.add (Frac.ofInt 2000000) else score
      if days_since < 2 then score.add (Frac.ofInt 1000000) else score
    else score
  let score :=
    if !is_saturday && streak > 0 && streak < 3 then score.sub (Frac.ofInt 150000)
    else score
  let score :=
    match ctx.alat_end with
    | some ae =>
      if ae < ctx.day ∧ ctx.day ≤ ae + 7 then
        let days_since_alat := ctx.day - ae
        let period_shifts := ds.shifts.filter (fun (s : Shift) =>
          s.person_id == p.id && ae < s.date && s.date < ctx.day)
        if (period_shifts.length : Int) = days_since_alat - 1 ∧ days_since_alat > 1 then
          score.add (Frac.ofInt (days_since_alat * 3000000))
        else score
      else score
    | none => score
  let score := score.add (Frac.ofInt (ds.role_counts p.id role * 100))
  let is_specialist := ["medic", "driver"].contains (strLower role)
  let is_staff_unit := strLower ((p.unit).getD "") == "staff"
  let score :=
    if !is_specialist && !is_staff_unit && unitTruthy p.unit
        && ds.assigned_units_today.contains ((p.unit).getD "") then
      score.sub (Frac.ofInt 500000)
    else score
  score

/-- The chosen (person, role) pair of one `while`-loop iteration;
`reqIdx` identifies the mutable requirement record (`req_obj`). -/
structure Choice where
  person : Person
  role : String
  score : Frac
  reqIdx : Nat

/-- The per-candidate `worked_yesterday` test (`days_since == 1` computed
from the person's last shift date, `False` when there is none). -/
def workedYesterday (ds : DayState) (day : Int) (pid : String) : Bool :=
  match ds.last_shift_date pid with
  | some ld => (day - ld) == 1
  | none => false

/-- The inner `for person in available` scan for one requirement; the
accumulator carries the best choice so far and the rng cursor, one draw
consumed per scored candidate; ties keep the earlier candidate. -/
def scanPeople (ctx : DayCtx) (ds : DayState) (req : DailyReq) (reqIdx : Nat) :
    List Person → Option Choice × Nat → Option Choice × Nat
  | [], acc => acc
  | p :: ps, (best, ridx) =>
    if ds.assigned_today.contains p.id then
      scanPeople ctx ds req reqIdx ps (best, ridx)
    else if !(p.roles.contains req.role) then
      scanPeople ctx ds req reqIdx ps (best, ridx)
    else if !(workedYesterday ds ctx.day p.id)
        && p.unavailable_dates.contains (ctx.day + 1) then
      scanPeople ctx ds req reqIdx ps (best, ridx)
    else
      let score := scoreOf ctx ds p req.role (ctx.rng ridx)
      let best' :=
        match best with
        | none => some (⟨p, req.role, score, reqIdx⟩ : Choice)
        | some b =>
          if Frac.ltB score b.score then some (⟨p, req.role, score, reqIdx⟩ : Choice)
          else some b
      scanPeople ctx ds req reqIdx ps (best', ridx + 1)

/-- The outer `for req in daily_reqs` scan (requirements with no remaining
need are skipped). -/
def scanReqs (ctx : DayCtx) (ds : DayState) :
    List (Nat × DailyReq) → Option Choice × Nat → Option Choice × Nat
  | [], acc => acc
  | (i, req) :: rest, acc =>
    if req.remaining ≤ 0 then scanReqs ctx ds rest acc
    else scanReqs ctx ds rest (scanPeople ctx ds req i ctx.available acc)

def enumFrom (i : Nat) : List α → List (Nat × α)
  | [] => []
  | a :: l => (i, a) :: enumFrom (i + 1) l

def scanAll (ctx : DayCtx) (ds : DayState) : Option Choice × Nat :=
  scanReqs ctx ds (enumFrom 0 ds.reqs) (none, ds.rng_idx)

def modifyAt (i : Nat) (f : α → α) : List α → List α
  | [] => []
  | a :: l =>
    match i with
    | 0 => f a :: l
    | j + 1 => a :: modifyAt j f l

/-- Commit the chosen candidate: create the shift and update all state. -/
def applyChoice (ctx : DayCtx) (c : Choice) (ds : DayState) : DayState :=
  let req := ds.reqs.getD c.reqIdx ⟨"", 0, 0, 0⟩
  let p := c.person
  let s : Shift :=
    ⟨dstr ctx.day ++ "-" ++ c.role ++ "-" ++ toString (req.total - req.remaining) ++ "-"
        ++ p.id,
      ctx.day, c.role, p.id⟩
  { shifts := ds.shifts ++ [s]
    shift_counts := upd ds.shift_counts p.id (ds.shift_counts p.id + 1)
    last_shift_date := upd ds.last_shift_date p.id (some ctx.day)
    work_streaks := upd ds.work_streaks p.id (ds.work_streaks p.id + 1)
    role_counts := upd2 ds.role_counts p.id c.role (ds.role_counts p.id c.role + 1)
    rng_idx := ds.rng_idx
    reqs := modifyAt c.reqIdx (fun r => { r with remaining := r.remaining - 1 }) ds.reqs
    assigned_today := ds.assigned_today ++ [p.id]
    assigned_units_today :=
      match p.unit with
      | some u => if unitTruthy p.unit then ds.assigned_units_today ++ [u]
                  else ds.assigned_units_today
      | none => ds.assigned_units_today }

/-- The `while total_needed > 0` loop; the fuel starts at the initial
`total_needed` and both counters decrease by exactly one per committed
assignment, so the fuelled recursion is the Python loop. -/
def fillLoop (ctx : DayCtx) : Nat → DayState → DayState
  | 0, ds => ds
  | fuel + 1, ds =>
    match scanAll ctx ds with
    | (none, ridx) => { ds with rng_idx := ridx }
    | (some c, ridx) => fillLoop ctx fuel (applyChoice ctx c { ds with rng_idx := ridx })

/-- The normal-generation branch for one day. -/
def normalDay (people : List Person) (requirements : List ShiftRequirement)
    (days : List Int) (alat_end : Option Int) (boost : Int) (boost_dates : List Int)
    (rng : Nat → Frac) (day : Int) (st : TrialState) : TrialState :=
  let available := people.filter (fun p => !(p.unavailable_dates.contains day))
  let reqs := mkDailyReqs people requirements day boost boost_dates
  let total_needed := (reqs.map (fun r => r.remaining)).foldl (· + ·) 0
  let streaks := fun pid =>
    if (people.any (fun p => p.id == pid))
        && !(st.last_shift_date pid == some (day - 1)) then 0
    else st.work_streaks pid
  let ctx : DayCtx := ⟨days, day, alat_end, rng, available⟩
  let ds0 : DayState :=
    ⟨st.shifts, st.shift_counts, st.last_shift_date, streaks, st.role_counts, st.rng_idx,
      reqs, [], []⟩
  let dsF := fillLoop ctx total_needed.toNat ds0
  ⟨dsF.shifts, dsF.shift_counts, dsF.last_shift_date, dsF.work_streaks, dsF.role_counts,
    dsF.rng_idx⟩

/-- Whether `day` falls in the ALAT period (`alat_end_date and day <= alat_end_date`). -/
def alatActive (alat_end : Option Int) (day : Int) : Bool :=
  match alat_end with
  | some ae => day ≤ ae
  | none => false

/-- One iteration of the `for day in days` loop of `attempt_generate`. -/
def dayStep (people : List Person) (requirements : List ShiftRequirement)
    (days : List Int) (alat_end : Option Int) (boost : Int) (boost_dates : List Int)
    (rng : Nat → Frac) (st : TrialState) (day : Int) : TrialState :=
  if alatActive alat_end day then alatDay people day st
  else if days.getLast? = some day then copyDay day st
  else normalDay people requirements days alat_end boost boost_dates rng day st

/-- The construction phase of one trial (everything before the validity
check). -/
def runTrial (people : List Person) (requirements : List ShiftRequirement)
    (days : List Int) (alat_end : Option Int) (boost : Int) (boost_dates : List Int)
    (rng : Nat → Frac) : TrialState :=
  days.foldl (dayStep people requirements days alat_end boost boost_dates rng) initState

/-- The per-requirement part of the validity check for one day; the first
shortfall returns `false`, and a per-weekday list count raises `TypeError`
(both on `target_count += boost` and on `count < target_count`). -/
def checkReqs (shifts : List Shift) (boost : Int) (boost_dates : List Int) (d : Int) :
    List ShiftRequirement → Except String Bool
  | [] => .ok true
  | req :: rest => do
    let target_count ←
      if req.role == "total_soldiers" && boost > 0 && boost_dates.contains d then
        pyAddCount req.count boost
      else pure req.count
    let count : Int := (shifts.filter (fun (s : Shift) => s.date == d && s.role == req.role)).length
    let short ← pyLtCount count target_count
    if short then pure false else checkReqs shifts boost boost_dates d rest

/-- The validity sweep over all days, skipping the ALAT period and the
last two days of the range. -/
def checkDays (shifts : List Shift) (requirements : List ShiftRequirement)
    (alat_end : Option Int) (boost : Int) (boost_dates : List Int)
    (last_two : List Int) : List Int → Except String Bool
  | [] => .ok true
  | d :: rest =>
    if last_two.contains d then checkDays shifts requirements alat_end boost boost_dates last_two rest
    else if alatActive alat_end d then
      checkDays shifts requirements alat_end boost boost_dates last_two rest
    else do
      let ok ← checkReqs shifts boost boost_dates d requirements
      if ok then checkDays shifts requirements alat_end boost boost_dates last_two rest
      else pure false

def checkValidity (shifts : List Shift) (requirements : List ShiftRequirement)
    (days : List Int) (alat_end : Option Int) (boost : Int) (boost_dates : List Int) :
    Except String Bool :=
  checkDays shifts requirements alat_end boost boost_dates
    (days.drop (days.length - 2)) days

/-- One full trial: construction followed by the validity check; a raised
exception surfaces as `.error`. -/
def attempt_generate (people : List Person) (requirements : List ShiftRequirement)
    (days : List Int) (alat_end : Option Int) (boost : Int) (boost_dates : List Int)
    (rng : Nat → Frac) : Except String (List Shift × Bool) := do
  let st := runTrial people requirements days alat_end boost boost_dates rng
  let ok ← checkValidity st.shifts requirements days alat_end boost boost_dates
  pure (st.shifts, ok)

/-! The selection phase of `generate_schedule`.  The parallel trials are
modelled as a list of trial outcomes in completion order; a trial that
raised is an `.error` entry and is caught and dropped. -/

structure SAttempt where
  shifts : List Shift
  spread : Int
deriving DecidableEq

def pymaxI (l : List Int) : Int :=
  match l with
  | [] => 0
  | a :: as => as.foldl max a

def pyminI (l : List Int) : Int :=
  match l with
  | [] => 0
  | a :: as => as.foldl min a

/-- The spread (max − min of per-person shift count over the field
population) recorded for a successful trial.  The source
(`generate_schedule`) defines the field population by unit membership:
`p.unit in ['1', '2', '3']`. -/
def fieldSpread (people : List Person) (shifts : List Shift) : Int :=
  let field_people := people.filter (fun p =>
    match p.unit with
    | some u => ["1", "2", "3"].contains u
    | none => false)
  if field_people = [] then 0
  else
    let counts := field_people.map (fun p =>
      ((shifts.filter (fun s => s.person_id == p.id)).length : Int))
    pymaxI counts - pyminI counts

/-- Modelled from the spec's words, for comparison with the source's
`fieldSpread`: the spread restricted to "the people carrying the
rotation-eligible aggregate role" (`total_soldiers`).  Role carriers are
a strict subset of units 1–3 (a field-unit officer carries no aggregate
role), so this metric can order a trial pool differently from the
source's unit-based one. -/
def roleFieldSpread (people : List Person) (shifts : List Shift) : Int :=
  let field_people := people.filter (fun p => p.roles.contains "total_soldiers")
  if field_people = [] then 0
  else
    let counts := field_people.map (fun p =>
      ((shifts.filter (fun s => s.person_id == p.id)).length : Int))
    pymaxI counts - pyminI counts

def collectSuccess (people : List Person)
    (results : List (Except String (List Shift × Bool))) : List SAttempt :=
  results.foldl
    (fun acc r =>
      match r with
      | .ok (shifts, true) =>
        acc ++ [⟨shifts, fieldSpread people shifts⟩]
      | _ => acc)
    []

/-- The selection of `generate_schedule` over a pool of trial outcomes:
keep the successful ones, sort stably by spread, return the first (or the
empty schedule when none succeeded). -/
def generate_schedule (people : List Person)
    (results : List (Except String (List Shift × Bool))) : List Shift :=
  let succ := collectSuccess people results
  match stableSortBy (fun a b => decide (a.spread < b.spread)) succ with
  | [] => []
  | best :: _ => best.shifts

/-! The slack-filling post pass `fill_extra_shifts`. -/

/-- The assignment map `{date: set of person ids}` keyed by the days of
the range, plus the mutable per-person vacation counter and the
`boosted_days` dict; `cur` is `current_shifts`. -/
structure FillState where
  cur : List Shift
  amap : Int → Option (List String)
  vac : String → Int
  boosted : List (Int × Int)

def get_assignment_map (days : List Int) (shifts : List Shift) :
    Int → Option (List String) :=
  fun d =>
    if days.contains d then some ((shifts.filter (fun s => s.date == d)).map Shift.person_id)
    else none

/-- `assignment_map[d].add(pid)` (a no-op outside the map's keys, which
never happens at the call sites: committed days come from `days_list`). -/
def amapAdd (amap : Int → Option (List String)) (d : Int) (pid : String) :
    Int → Option (List String) :=
  fun x =>
    if x = d then
      match amap d with
      | some l => some (l ++ [pid])
      | none => none
    else amap x

def amapHas (amap : Int → Option (List String)) (d : Int) (pid : String) : Bool :=
  match amap d with
  | some l => l.contains pid
  | none => false

/-- The `can_add` helper of `fill_extra_shifts`. -/
def can_add (amap : Int → Option (List String)) (p : Person) (d : Int) : Bool :=
  !(p.unavailable_dates.contains d)
    && !(amapHas amap d p.id)
    && !(amapHas amap (d - 1) p.id)
    && !(amapHas amap (d + 1) p.id)

/-- `boosted_days.get(d, 0)`. -/
def boostedGet (l : List (Int × Int)) (d : Int) : Int :=
  match l.find? (fun e => e.1 == d) with
  | some e => e.2
  | none => 0

/-- `boosted_days[d] = v` (insert-or-overwrite). -/
def boostedSet (d v : Int) : List (Int × Int) → List (Int × Int)
  | [] => [(d, v)]
  | e :: rest => if e.1 == d then (d, v) :: rest else e :: boostedSet d v rest

/-- ISO week key: `d_obj.isocalendar()[1]`.  Day 0 is a Monday, so two
days share a Monday-aligned block exactly when they share the ISO
(year, week) pair; the block index models the week number (the source
keys by the number alone, which additionally collides across years — the
grouping is identical for any range within one ISO year). -/
def isoWeek (d : Int) : Int := d.fdiv 7

/-- Group the eligible days (outside ALAT and the last two) by week, in
first-occurrence order (`weeks` is a Python dict). -/
def assocAppend (k d : Int) : List (Int × List Int) → List (Int × List Int)
  | [] => [(k, [d])]
  | (k', l) :: rest =>
    if k' = k then (k', l ++ [d]) :: rest else (k', l) :: assocAppend k d rest

def buildWeeks (days : List Int) (alat_end : Option Int) (last_two : List Int) :
    List (Int × List Int) :=
  days.foldl
    (fun acc d =>
      if alatActive alat_end d then acc
      else if last_two.contains d then acc
      else assocAppend (isoWeek d) d acc)
    []

/-- The candidate-collection loop shared by both passes: walk
`slack_people` with an addition counter, stop at `limit`, skip people
whose remaining vacation is at or below the target or who cannot be
added, and return the picked people in order. -/
def collectAdds (vac : String → Int) (amap : Int → Option (List String))
    (target_min_vacation : Int) (d : Int) (limit : Int) :
    List Person → Int → List Person
  | [], _ => []
  | p :: ps, added =>
    if added ≥ limit then []
    else if vac p.id ≤ target_min_vacation then
      collectAdds vac amap target_min_vacation d limit ps added
    else if can_add amap p d then
      p :: collectAdds vac amap target_min_vacation d limit ps (added + 1)
    else collectAdds vac amap target_min_vacation d limit ps added

/-- The shifts created for the picked people (`tag` distinguishes the
burst pass from the general pass in the shift id). -/
def mkExtraShifts (tag : String) (d : Int) (picked : List Person) : List Shift :=
  picked.map (fun p => ⟨dstr d ++ tag ++ p.id, d, "soldier_extra", p.id⟩)

/-- Commit a day's additions: extend the schedule, mark the people in the
assignment map and decrement their vacation counters. -/
def commitAdds (fs : FillState) (d : Int) (tag : String) (picked : List Person) :
    FillState :=
  { cur := fs.cur ++ mkExtraShifts tag d picked
    amap := picked.foldl (fun m p => amapAdd m d p.id) fs.amap
    vac := picked.foldl (fun v p => upd v p.id (v p.id - 1)) fs.vac
    boosted := fs.boosted }

/-- One burst-target day: add up to `max_boost_param` slack people,
committing only when at least 3 additions succeed. -/
def burstDay (slack_people : List Person) (target_min_vacation max_boost_param : Int)
    (fs : FillState) (d : Int) : FillState :=
  let picked := collectAdds fs.vac fs.amap target_min_vacation d max_boost_param
    slack_people 0
  let added_count : Int := picked.length
  if added_count ≥ 3 then
    let fs' := commitAdds fs d "-soldier_extra_fill_burst-" picked
    { fs' with boosted := boostedSet d added_count fs'.boosted }
  else fs

/-- One week of the burst pass: rank the week's days by how many slack
people could be added, boost the top two. -/
def burstWeek (slack_people : List Person) (target_min_vacation max_boost_param : Int)
    (fs : FillState) (week_days : List Int) : FillState :=
  let day_potentials := week_days.map (fun d =>
    (d, ((slack_people.filter (fun p =>
        !(fs.vac p.id ≤ target_min_vacation) && can_add fs.amap p d)).length : Int)))
  let sorted := stableSortBy (fun (a b : Int × Int) => decide (b.2 < a.2)) day_potentials
  let target_days := (sorted.take 2).map (fun x => x.1)
  target_days.foldl (burstDay slack_people target_min_vacation max_boost_param) fs

/-- One day of the second, general pass: top the day up to the boost cap,
committing only when the day's total (existing + new) reaches 3. -/
def generalDay (slack_people : List Person) (alat_end : Option Int)
    (last_two : List Int) (target_min_vacation max_boost_param : Int)
    (fs : FillState) (d : Int) : FillState :=
  if alatActive alat_end d then fs
  else if last_two.contains d then fs
  else
    let current_added := boostedGet fs.boosted d
    if current_added ≥ max_boost_param then fs
    else
      let picked := collectAdds fs.vac fs.amap target_min_vacation d
        (max_boost_param - current_added) slack_people 0
      let added_count : Int := picked.length
      let total_boost := current_added + added_count
      if total_boost ≥ 3 ∧ added_count > 0 then
        let fs' := commitAdds fs d "-soldier_extra_fill-" picked
        { fs' with boosted := boostedSet d total_boost fs'.boosted }
      else fs

def fill_extra_shifts (initial_shifts : List Shift) (people : List Person)
    (days_list : List Int) (alat_end_date : Option Int)
    (target_min_vacation : Int) (max_boost_param : Int) : List Shift :=
  if max_boost_param ≤ 0 then initial_shifts
  else
    let total_days : Int := days_list.length
    let people_vacation : String → Int := fun pid =>
      total_days - ((initial_shifts.filter (fun s => s.person_id == pid)).length : Int)
    let slack_people :=
      (people.filter (fun p => people_vacation p.id > target_min_vacation)).filter
        (fun p => p.roles.contains "total_soldiers")
    let slack_people := stableSortBy
      (fun p q => decide (people_vacation q.id < people_vacation p.id)) slack_people
    let last_two := days_list.drop (days_list.length - 2)
    let fs0 : FillState :=
      ⟨initial_shifts, get_assignment_map days_list initial_shifts, people_vacation, []⟩
    let weeks := buildWeeks days_list alat_end_date last_two
    let fs1 := weeks.foldl
      (fun fs wk => burstWeek slack_people target_min_vacation max_boost_param fs wk.2)
      fs0
    let fs2 := days_list.foldl
      (generalDay slack_people alat_end_date last_two target_min_vacation max_boost_param)
      fs1
    fs2.cur

end GenVac

/-! # Concrete instances used by the witnesses and counterexamples -/

namespace Sched

def wP : Person := ⟨"p1", "P", "000", "soldier", "u1", []⟩

def wCampaign : Campaign := ⟨"c", 0, 30, [], 12⟩

def wMission : Mission :=
  ⟨"m1", "guard", Frac.ofInt 0, Frac.ofInt 12, [("soldier", 1)], "planned", [], false⟩

def wSched : Scheduler := ⟨[wP], wCampaign, [], [], [⟨wP, []⟩]⟩

def wCand : CandidateScore :=
  ⟨wP, Frac.ofInt 0, Frac.ofInt 0, Frac.ofInt 0, Frac.ofInt 0, Frac.ofInt 0, Frac.ofInt 0⟩

/-- Prior mission of the §8 rest example: a 12-hour slot ending
2024-06-01 08:00 (hour 8 of day 0). -/
def w4Prior : Mission :=
  ⟨"m0", "prior", Frac.ofInt (-4), Frac.ofInt 8, [], "planned", [], false⟩

def w4St : PersonState := ⟨wP, [w4Prior]⟩

def w4Sched : Scheduler := ⟨[wP], wCampaign, [], [], [w4St]⟩

/-- A slot starting 2024-06-01 19:00 (one hour before enough rest). -/
def w4M19 : Mission :=
  ⟨"m19", "early", Frac.ofInt 19, Frac.ofInt 24, [], "planned", [], false⟩

/-- A slot starting 2024-06-01 20:00 (exactly enough rest). -/
def w4M20 : Mission :=
  ⟨"m20", "late", Frac.ofInt 20, Frac.ofInt 30, [], "planned", [], false⟩

/-- Malformed preferences: a `rest_multiplier` whose target is not a
float, and a `must_vacation_date` whose target is not a parseable date. -/
def w8PrefMult : Preference := ⟨"p1", "rest_multiplier", ⟨"abc", none, none⟩, "medium", none⟩

def w8PrefVac : Preference :=
  ⟨"p1", "must_vacation_date", ⟨"not-a-date", none, none⟩, "medium", none⟩

def w8Sched : Scheduler := ⟨[wP], wCampaign, [], [w8PrefMult, w8PrefVac], [⟨wP, []⟩]⟩

/-- A mission spanning hours [0, 10) of day 0. -/
def cexA : Mission := ⟨"A", "a", Frac.ofInt 0, Frac.ofInt 10, [], "planned", [], false⟩

/-- A mission spanning hours [5, 15): overlaps `cexA`. -/
def cexB : Mission := ⟨"B", "b", Frac.ofInt 5, Frac.ofInt 15, [], "planned", [], false⟩

/-- A mission spanning hours [20, 30): disjoint from `cexA`. -/
def cexC : Mission := ⟨"C", "c", Frac.ofInt 20, Frac.ofInt 30, [], "planned", [], false⟩

def cex5Sched : Scheduler := ⟨[wP], wCampaign, [], [], [⟨wP, [cexA]⟩]⟩

def cex5Cmd : CommitCmd := ⟨cexB, "soldier", "p1"⟩

def w5Cmd : CommitCmd := ⟨cexC, "soldier", "p1"⟩

/-- A mission with person `p1` already assigned under role `soldier`. -/
def cex6M : Mission :=
  ⟨"M", "m", Frac.ofInt 0, Frac.ofInt 10, [], "planned", [("soldier", ["p1"])], false⟩

def cex6Sched : Scheduler := ⟨[wP], wCampaign, [], [], [⟨wP, [cex6M]⟩]⟩

end Sched

namespace GenVac

/-- A deterministic random stream; the jitter draw is always 0. -/
def zeroRng : Nat → Frac := fun _ => Frac.ofInt 0

def c2P : Person := ⟨"a", "A", ["soldier"], some "1", [], []⟩

/-- A per-weekday requirement: one soldier every day of the week. -/
def c2Req : ShiftRequirement := ⟨"soldier", .weekly [1, 1, 1, 1, 1, 1, 1]⟩

def c3PA : Person := ⟨"a", "A", ["soldier"], some "1", [], []⟩

def c3PB : Person := ⟨"b", "B", ["soldier"], some "1", [], []⟩

def c3Shift : Shift := ⟨"0-soldier-0-a", 0, "soldier", "a"⟩

/-- Two pre-computed valid trials: one with field spread 1, one with
spread 0. -/
def c3Results : List (Except String (List Shift × Bool)) :=
  [.ok ([c3Shift], true), .ok ([], true)]

/-- A field-unit officer: in the source's field population (unit "1")
but carrying no rotation-eligible aggregate role. -/
def c3xA : Person := ⟨"a", "A", ["officer"], some "1", [], []⟩

def c3xB : Person := ⟨"b", "B", ["soldier", "total_soldiers"], some "1", [], []⟩

def c3xC : Person := ⟨"c", "C", ["soldier", "total_soldiers"], some "1", [], []⟩

def c3xPeople : List Person := [c3xA, c3xB, c3xC]

/-- Trial one: two shifts each for `b` and `c`, none for the officer
`a`; unit-based spread 2, role-carrier spread 0. -/
def c3xShiftsT1 : List Shift :=
  [⟨"t1-1", 0, "soldier", "b"⟩, ⟨"t1-2", 1, "soldier", "b"⟩,
    ⟨"t1-3", 0, "soldier", "c"⟩, ⟨"t1-4", 1, "soldier", "c"⟩]

/-- Trial two: one shift for `a`, two for `b`, one for `c`; unit-based
spread 1, role-carrier spread 1. -/
def c3xShiftsT2 : List Shift :=
  [⟨"t2-1", 0, "officer", "a"⟩, ⟨"t2-2", 0, "soldier", "b"⟩,
    ⟨"t2-3", 1, "soldier", "b"⟩, ⟨"t2-4", 0, "soldier", "c"⟩]

/-- A pool of two valid trials on which the two spread metrics disagree:
the source picks trial two (unit spread 1 < 2), yet trial one has the
strictly smaller role-carrier spread (0 < 1). -/
def c3xResults : List (Except String (List Shift × Bool)) :=
  [.ok (c3xShiftsT1, true), .ok (c3xShiftsT2, true)]

/-- The person of the C7 witness: unavailable on days 0 and 2. -/
def c7P : Person := ⟨"a", "A", ["soldier"], some "1", [0, 2], []⟩

def c7PB : Person := ⟨"b", "B", ["soldier"], some "1", [], []⟩

def c7Req : ShiftRequirement := ⟨"soldier", .int 1⟩

def c9PA : Person := ⟨"a", "A", ["soldier"], some "1", [], []⟩

def c9PB : Person := ⟨"b", "B", ["soldier"], some "1", [], []⟩

def c9Req : ShiftRequirement := ⟨"soldier", .int 2⟩

def c10Shift : Shift := ⟨"0-soldier-0-a", 0, "soldier", "a"⟩

end GenVac

/-! # Infrastructure lemmas -/

theorem mem_sInsert (lt : α → α → Bool) (a x : α) :
    ∀ l : List α, x ∈ sInsert lt a l ↔ x = a ∨ x ∈ l := by
  intro l
  induction l with
  | nil => simp [sInsert]
  | cons b t ih =>
    simp only [sInsert]
    by_cases h : lt a b
    · simp [h]
    · simp only [h]
      simp only [Bool.false_eq_true, if_false, List.mem_cons, ih]
      tauto

theorem mem_foldl_sInsert (lt : α → α → Bool) (x : α) :
    ∀ (l acc : List α), x ∈ l.foldl (fun acc y => sInsert lt y acc) acc ↔ x ∈ acc ∨ x ∈ l := by
  intro l
  induction l with
  | nil => simp
  | cons b t ih =>
    intro acc
    simp only [List.foldl_cons, ih, mem_sInsert, List.mem_cons]
    tauto

theorem mem_stableSortBy (lt : α → α → Bool) (x : α) (l : List α) :
    x ∈ stableSortBy lt l ↔ x ∈ l := by
  simp [stableSortBy, mem_foldl_sInsert]

theorem pairwise_sInsert (lt : α → α → Bool)
    (A : ∀ a b, lt a b = true → lt b a = false)
    (T : ∀ a b c, lt a b = true → lt b c = true → lt a c = true) (a : α) :
    ∀ l : List α, List.Pairwise (fun x y => lt y x = false) l →
      List.Pairwise (fun x y => lt y x = false) (sInsert lt a l) := by
  intro l
  induction l with
  | nil => intro _; simp [sInsert]
  | cons b t ih =>
    intro hp
    rcases List.pairwise_cons.mp hp with ⟨hb, ht⟩
    simp only [sInsert]
    by_cases h : lt a b
    · simp only [h, if_true]
      refine List.pairwise_cons.mpr ⟨?_, hp⟩
      intro y hy
      rcases List.mem_cons.mp hy with rfl | hy
      · exact A a y h
      · by_contra hya
        have hya' : lt y a = true := by
          cases hlt : lt y a
          · exact absurd hlt hya
          · rfl
        have : lt y b = true := T y a b hya' h
        rw [hb y hy] at this
        exact Bool.false_ne_true this
    · simp only [h]
      simp only [Bool.false_eq_true, if_false]
      refine List.pairwise_cons.mpr ⟨?_, ih ht⟩
      intro y hy
      rcases (mem_sInsert lt a y t).mp hy with rfl | hy
      · cases hlt : lt y b
        · rfl
        · exact absurd hlt h
      · exact hb y hy

theorem pairwise_foldl_sInsert (lt : α → α → Bool)
    (A : ∀ a b, lt a b = true → lt b a = false)
    (T : ∀ a b c, lt a b = true → lt b c = true → lt a c = true) :
    ∀ (l acc : List α), List.Pairwise (fun x y => lt y x = false) acc →
      List.Pairwise (fun x y => lt y x = false)
        (l.foldl (fun acc y => sInsert lt y acc) acc) := by
  intro l
  induction l with
  | nil => intro acc h; exact h
  | cons b t ih => intro acc h; exact ih _ (pairwise_sInsert lt A T b acc h)

theorem pairwise_stableSortBy (lt : α → α → Bool)
    (A : ∀ a b, lt a b = true → lt b a = false)
    (T : ∀ a b c, lt a b = true → lt b c = true → lt a c = true) (l : List α) :
    List.Pairwise (fun x y => lt y x = false) (stableSortBy lt l) :=
  pairwise_foldl_sInsert lt A T l [] (List.Pairwise.nil)

theorem memContains [BEq α] [LawfulBEq α] {a : α} {l : List α} (h : a ∈ l) :
    l.contains a = true := by
  simpa using h

theorem containsMem [BEq α] [LawfulBEq α] {a : α} {l : List α} (h : l.contains a = true) :
    a ∈ l := by
  simpa using h

theorem contains_snoc [BEq α] [LawfulBEq α] (l : List α) (x q : α) :
    (l ++ [x]).contains q = (l.contains q || x == q) := by
  by_cases h1 : q ∈ l
  · simp [h1, List.mem_append]
  · by_cases h2 : q = x
    · subst h2
      simp [h1, List.mem_append]
    · have h3 : q ∉ l ++ [x] := by
        simp [List.mem_append, List.mem_singleton]
        exact ⟨h1, h2⟩
      have h4 : (x == q) = false := by
        simp [beq_iff_eq]
        exact fun h => h2 h.symm
      simp [h1, h3, h4]

theorem mapIdOn (l : List α) (f : α → α) (h : ∀ a ∈ l, f a = a) : l.map f = l := by
  induction l with
  | nil => rfl
  | cons b t ih =>
    simp only [List.map_cons, h b (List.mem_cons_self b t)]
    rw [ih (fun a ha => h a (List.mem_cons_of_mem b ha))]

theorem foldl_preserve (P : β → Prop) (f : β → α → β)
    (hf : ∀ b a, P b → P (f b a)) : ∀ (l : List α) (b : β), P b → P (l.foldl f b) := by
  intro l
  induction l with
  | nil => intro b h; exact h
  | cons x t ih => intro b h; exact ih _ (hf b x h)

/-! Bridges between `Frac` comparisons and `ℚ`. -/

namespace Frac

theorem den_cast_pos (a : Frac) : (0 : ℚ) < ((a.den : ℕ) : ℚ) := by
  exact_mod_cast a.den.pos

theorem ltB_iff (a b : Frac) : ltB a b = true ↔ val a < val b := by
  rw [ltB, decide_eq_true_eq, val, val, div_lt_div_iff (den_cast_pos a) (den_cast_pos b)]
  constructor
  · intro h; exact_mod_cast h
  · intro h; exact_mod_cast h

theorem leB_iff (a b : Frac) : leB a b = true ↔ val a ≤ val b := by
  rw [leB, decide_eq_true_eq, val, val, div_le_div_iff (den_cast_pos a) (den_cast_pos b)]
  constructor
  · intro h; exact_mod_cast h
  · intro h; exact_mod_cast h

theorem eqB_iff (a b : Frac) : eqB a b = true ↔ val a = val b := by
  rw [eqB, beq_iff_eq, val, val,
    div_eq_div_iff (ne_of_gt (den_cast_pos a)) (ne_of_gt (den_cast_pos b))]
  constructor
  · intro h; exact_mod_cast h
  · intro h; exact_mod_cast h

theorem ltB_eq_false_iff (a b : Frac) : ltB a b = false ↔ val b ≤ val a := by
  constructor
  · intro h
    by_contra hc
    push_neg at hc
    rw [← ltB_iff] at hc
    rw [h] at hc
    exact Bool.false_ne_true hc
  · intro h
    cases hlt : ltB a b
    · rfl
    · exact absurd ((ltB_iff a b).mp hlt) (not_lt.mpr h)

end Frac

/-! # Claims about `src/scheduler.py` -/

namespace Sched

theorem candLt_split (c d : CandidateScore) :
    candLt c d = true ↔
      Frac.val c.total_score < Frac.val d.total_score
        ∨ (Frac.val c.total_score = Frac.val d.total_score
            ∧ c.person.person_id < d.person.person_id) := by
  simp [candLt, Bool.or_eq_true, Bool.and_eq_true, Frac.ltB_iff, Frac.eqB_iff,
    decide_eq_true_eq]

theorem candLt_asymm (c d : CandidateScore) (h : candLt c d = true) :
    candLt d c = false := by
  cases hdc : candLt d c
  · rfl
  · exfalso
    rcases (candLt_split c d).mp h with h1 | ⟨h1, h2⟩ <;>
      rcases (candLt_split d c).mp hdc with h3 | ⟨h3, h4⟩
    · exact absurd h3 (not_lt.mpr (le_of_lt h1))
    · exact absurd h3 (ne_of_gt h1)
    · exact absurd h3 (not_lt.mpr (le_of_eq h1))
    · exact absurd h4 (not_lt.mpr (le_of_lt h2))

theorem candLt_trans (c d e : CandidateScore) (h1 : candLt c d = true)
    (h2 : candLt d e = true) : candLt c e = true := by
  rcases (candLt_split c d).mp h1 with ha | ⟨ha, ha'⟩ <;>
    rcases (candLt_split d e).mp h2 with hb | ⟨hb, hb'⟩
  · exact (candLt_split c e).mpr (Or.inl (lt_trans ha hb))
  · exact (candLt_split c e).mpr (Or.inl (hb ▸ ha))
  · exact (candLt_split c e).mpr (Or.inl (ha ▸ hb))
  · exact (candLt_split c e).mpr (Or.inr ⟨ha.trans hb, lt_trans ha' hb'⟩)

theorem calculate_score_person (s : Scheduler) (st : PersonState) (m : Mission)
    (role : String) (asg : List String) :
    (s.calculate_score st m role asg).person = st.person := rfl

theorem mem_get_candidates (s : Scheduler) (m : Mission) (role : String)
    (asg : List String) (c : CandidateScore) :
    c ∈ s.get_candidates m role asg ↔
      ∃ st ∈ s.states, s.passes_filters m role asg st = true
        ∧ c = s.calculate_score st m role asg := by
  rw [Scheduler.get_candidates, mem_stableSortBy]
  constructor
  · intro hc
    rcases List.mem_map.mp hc with ⟨st, hst, rfl⟩
    rcases List.mem_filter.mp hst with ⟨hmem, hpass⟩
    exact ⟨st, hmem, hpass, rfl⟩
  · rintro ⟨st, hmem, hpass, rfl⟩
    exact List.mem_map.mpr ⟨st, List.mem_filter.mpr ⟨hmem, hpass⟩, rfl⟩

theorem passes_filters_split (s : Scheduler) (m : Mission) (role : String)
    (asg : List String) (st : PersonState) (h : s.passes_filters m role asg st = true) :
    st.person.can_fill_role role = true
      ∧ asg.contains st.person.person_id = false
      ∧ s.has_must_vacation st.person.person_id (dateOf m.start) = false
      ∧ s.has_overlap st m = false
      ∧ s.has_enough_rest st m = true := by
  simp only [Scheduler.passes_filters, Bool.and_eq_true, Bool.not_eq_true'] at h
  exact ⟨h.1.1.1.1, h.1.1.1.2, h.1.1.2, h.1.2, h.2⟩

/-- Claim C1: every candidate returned by `get_candidates` passes all five
hard filters of the ranking engine (can fill the role; not already
assigned; no active must-vacation-date preference for the mission's date;
no overlapping assigned mission; enough rest), and the returned list is
sorted non-decreasing by total score.  In particular a person with an
active must-vacation-date preference for the mission's date is never
returned. -/
theorem claim_C1 (s : Scheduler) (m : Mission) (role : String) (asg : List String) :
    (∀ c ∈ s.get_candidates m role asg,
        ∃ st ∈ s.states, c.person = st.person
          ∧ st.person.can_fill_role role = true
          ∧ asg.contains st.person.person_id = false
          ∧ s.has_must_vacation st.person.person_id (dateOf m.start) = false
          ∧ s.has_overlap st m = false
          ∧ s.has_enough_rest st m = true)
      ∧ List.Pairwise (fun a b => Frac.leB a.total_score b.total_score = true)
          (s.get_candidates m role asg) := by
  constructor
  · intro c hc
    rcases (mem_get_candidates s m role asg c).mp hc with ⟨st, hmem, hpass, rfl⟩
    rcases passes_filters_split s m role asg st hpass with ⟨h1, h2, h3, h4, h5⟩
    exact ⟨st, hmem, calculate_score_person s st m role asg, h1, h2, h3, h4, h5⟩
  · have hp := pairwise_stableSortBy candLt candLt_asymm candLt_trans
      ((s.states.filter (s.passes_filters m role asg)).map
        (fun st => s.calculate_score st m role asg))
    refine List.Pairwise.imp ?_ hp
    intro a b hab
    rw [Frac.leB_iff]
    by_contra hc
    push_neg at hc
    have : candLt b a = true :=
      (candLt_split b a).mpr (Or.inl hc)
    rw [hab] at this
    exact Bool.false_ne_true this

/-- Claim C1 witness: in a concrete one-person world the single returned
candidate is a member of the output, and the theorem instantiates on it. -/
theorem claim_C1_witness :
    wCand ∈ wSched.get_candidates wMission "soldier" []
      ∧ ∃ st ∈ wSched.states, wCand.person = st.person
          ∧ st.person.can_fill_role "soldier" = true
          ∧ ([] : List String).contains st.person.person_id = false
          ∧ wSched.has_must_vacation st.person.person_id (dateOf wMission.start) = false
          ∧ wSched.has_overlap st wMission = false
          ∧ wSched.has_enough_rest st wMission = true :=
  ⟨by decide, (claim_C1 wSched wMission "soldier" []).1 wCand (by decide)⟩

theorem eqB_refl (a : Frac) : Frac.eqB a a = true := by
  simp [Frac.eqB]

theorem foldl_pymax_attains (l : List Mission) (a : Frac) :
    l.foldl (fun acc x => Frac.pymax acc x.end_) a = a
      ∨ ∃ x ∈ l, l.foldl (fun acc x => Frac.pymax acc x.end_) a = x.end_ := by
  induction l generalizing a with
  | nil => exact Or.inl rfl
  | cons m t ih =>
    simp only [List.foldl_cons]
    rcases ih (Frac.pymax a m.end_) with h | ⟨x, hx, h⟩
    · rw [h, Frac.pymax]
      by_cases hc : Frac.ltB a m.end_
      · exact Or.inr ⟨m, List.mem_cons_self m t, by simp [hc]⟩
      · simp only [hc]
        exact Or.inl (by simp)
    · exact Or.inr ⟨x, List.mem_cons_of_mem m hx, h⟩

/-- Claim C4: for a person with at least one assigned mission, the rest
hard filter admits them for a new mission exactly when the mission's
start is at or after the end of the most recently ended assigned mission
plus `min(duration, rest-cap) × rest-multiplier`. -/
theorem claim_C4 (s : Scheduler) (st : PersonState) (m : Mission)
    (h : st.missions_assigned ≠ []) :
    ∃ last_end last_mission,
      st.last_mission_end = some last_end
        ∧ st.missions_assigned.find? (fun mm => Frac.eqB mm.end_ last_end) = some last_mission
        ∧ Frac.eqB last_mission.end_ last_end = true
        ∧ (s.has_enough_rest st m = true ↔
            Frac.leB
              (last_end.add
                ((Frac.pymin last_mission.duration_hours
                    (Frac.ofInt s.campaign.rest_cap_hours)).mul
                  (s.get_rest_multiplier st.person.person_id (dateOf m.start))))
              m.start = true) := by
  obtain ⟨m0, ms, hms⟩ : ∃ m0 ms, st.missions_assigned = m0 :: ms := by
    cases hl : st.missions_assigned with
    | nil => exact absurd hl h
    | cons a l => exact ⟨a, l, rfl⟩
  have hlast : st.last_mission_end
      = some (ms.foldl (fun acc x => Frac.pymax acc x.end_) m0.end_) := by
    rw [PersonState.last_mission_end, hms]
  set e := ms.foldl (fun acc x => Frac.pymax acc x.end_) m0.end_ with he
  have hex : ∃ y ∈ st.missions_assigned, Frac.eqB y.end_ e = true := by
    rcases foldl_pymax_attains ms m0.end_ with hh | ⟨x, hx, hh⟩
    · exact ⟨m0, by rw [hms]; exact List.mem_cons_self m0 ms, by rw [← he] at hh; rw [hh]; exact eqB_refl m0.end_⟩
    · exact ⟨x, by rw [hms]; exact List.mem_cons_of_mem m0 hx,
        by rw [← he] at hh; rw [hh]; exact eqB_refl x.end_⟩
  have hsome : (st.missions_assigned.find? (fun mm => Frac.eqB mm.end_ e)).isSome := by
    rw [List.find?_isSome]
    exact hex
  obtain ⟨lm, hfind⟩ := Option.isSome_iff_exists.mp hsome
  refine ⟨e, lm, hlast, hfind, ?_, ?_⟩
  · have hp := List.find?_some hfind
    simpa using hp
  · rw [Scheduler.has_enough_rest, hlast]
    simp only [hfind]

/-- Claim C4 witness: the §8 example.  A 12-hour mission ending at hour 8
of day 0, rest cap 12 and multiplier 1.0: the slot starting at hour 19 is
rejected, the one starting at hour 20 is admitted, and the theorem
instantiates on the concrete state. -/
theorem claim_C4_witness :
    (w4St.missions_assigned ≠ [])
      ∧ (∃ last_end last_mission,
          w4St.last_mission_end = some last_end
            ∧ w4St.missions_assigned.find? (fun mm => Frac.eqB mm.end_ last_end)
              = some last_mission
            ∧ Frac.eqB last_mission.end_ last_end = true
            ∧ (w4Sched.has_enough_rest w4St w4M20 = true ↔
                Frac.leB
                  (last_end.add
                    ((Frac.pymin last_mission.duration_hours
                        (Frac.ofInt w4Sched.campaign.rest_cap_hours)).mul
                      (w4Sched.get_rest_multiplier w4St.person.person_id
                        (dateOf w4M20.start))))
                  w4M20.start = true))
      ∧ w4Sched.has_enough_rest w4St w4M19 = false
      ∧ w4Sched.has_enough_rest w4St w4M20 = true :=
  ⟨by decide, claim_C4 w4Sched w4St w4M20 (by decide), by decide, by decide⟩

theorem restMultLoop_none (d : Int) (l : List Preference)
    (h : ∀ p ∈ l, p.type = "rest_multiplier" → p.is_active d = true →
      p.target.asFloat = none) : restMultLoop d l = none := by
  induction l with
  | nil => rfl
  | cons p ps ih =>
    rw [restMultLoop]
    by_cases hc : (p.type == "rest_multiplier" && p.is_active d) = true
    · rcases Bool.and_eq_true_iff.mp hc with ⟨h1, h2⟩
      have := h p (List.mem_cons_self p ps) (by simpa using h1) h2
      rw [this, hc]
      simp only [if_true]
      exact ih (fun q hq => h q (List.mem_cons_of_mem p hq))
    · rw [Bool.not_eq_true] at hc
      rw [hc]
      simp only [Bool.false_eq_true, if_false]
      exact ih (fun q hq => h q (List.mem_cons_of_mem p hq))

theorem mustVacLoop_false (d : Int) (l : List Preference)
    (h : ∀ p ∈ l, p.type = "must_vacation_date" → p.is_active d = true →
      p.target.asDate = none) : mustVacLoop d l = false := by
  induction l with
  | nil => rfl
  | cons p ps ih =>
    rw [mustVacLoop]
    by_cases hc : (p.type == "must_vacation_date" && p.is_active d) = true
    · rcases Bool.and_eq_true_iff.mp hc with ⟨h1, h2⟩
      have := h p (List.mem_cons_self p ps) (by simpa using h1) h2
      rw [this, hc]
      simp only [if_true]
      exact ih (fun q hq => h q (List.mem_cons_of_mem p hq))
    · rw [Bool.not_eq_true] at hc
      rw [hc]
      simp only [Bool.false_eq_true, if_false]
      exact ih (fun q hq => h q (List.mem_cons_of_mem p hq))

/-- Claim C8: malformed preference values have no effect and never raise:
if every active `rest_multiplier` preference of a person has a non-numeric
target the multiplier evaluates to 1.0, and if every active
`must_vacation_date` preference has an unparseable target the person is
never treated as having a mandatory vacation. -/
theorem claim_C8 (s : Scheduler) (pid : String) (d : Int)
    (h1 : ∀ p ∈ s.prefsOf pid, p.type = "rest_multiplier" → p.is_active d = true →
      p.target.asFloat = none)
    (h2 : ∀ p ∈ s.prefsOf pid, p.type = "must_vacation_date" → p.is_active d = true →
      p.target.asDate = none) :
    s.get_rest_multiplier pid d = Frac.ofInt 1 ∧ s.has_must_vacation pid d = false := by
  constructor
  · rw [Scheduler.get_rest_multiplier, restMultLoop_none d _ h1]
  · rw [Scheduler.has_must_vacation, mustVacLoop_false d _ h2]

/-- Claim C8 witness: a scheduler holding one malformed `rest_multiplier`
preference and one malformed `must_vacation_date` preference for `p1`. -/
theorem claim_C8_witness :
    w8Sched.get_rest_multiplier "p1" 3 = Frac.ofInt 1
      ∧ w8Sched.has_must_vacation "p1" 3 = false :=
  claim_C8 w8Sched "p1" 3 (by decide) (by decide)

theorem overlapsB_comm (a b : Mission) : overlapsB a b = overlapsB b a := by
  simp [overlapsB, Bool.or_comm]

theorem pairwiseFreeB_append (l : List Mission) (m' : Mission) :
    pairwiseFreeB (l ++ [m']) = true ↔
      (pairwiseFreeB l = true ∧ ∀ a ∈ l, overlapsB a m' = false) := by
  induction l with
  | nil => simp [pairwiseFreeB]
  | cons a t ih =>
    constructor
    · intro h
      rw [List.cons_append, pairwiseFreeB, Bool.and_eq_true] at h
      obtain ⟨hall, hrest⟩ := h
      rw [List.all_append] at hall
      obtain ⟨hallt, hallm⟩ := Bool.and_eq_true_iff.mp hall
      obtain ⟨ht, hm⟩ := ih.mp hrest
      refine ⟨?_, ?_⟩
      · rw [pairwiseFreeB, Bool.and_eq_true]
        exact ⟨hallt, ht⟩
      · intro x hx
        rcases List.mem_cons.mp hx with rfl | hx
        · have hm' : (!overlapsB x m') = true := by
            simpa [List.all_cons] using hallm
          simpa using hm'
        · exact hm x hx
    · rintro ⟨hp, hall⟩
      rw [pairwiseFreeB, Bool.and_eq_true] at hp
      obtain ⟨hallt, ht⟩ := hp
      rw [List.cons_append, pairwiseFreeB, Bool.and_eq_true]
      refine ⟨?_, ih.mpr ⟨ht, fun x hx => hall x (List.mem_cons_of_mem a hx)⟩⟩
      rw [List.all_append, Bool.and_eq_true]
      refine ⟨hallt, ?_⟩
      simp [List.all_cons, hall a (List.mem_cons_self a t)]

theorem assign_person_start (m : Mission) (role pid : String) :
    (m.assign_person role pid).start = m.start := by
  rw [Mission.assign_person]
  split <;> rfl

theorem assign_person_end (m : Mission) (role pid : String) :
    (m.assign_person role pid).end_ = m.end_ := by
  rw [Mission.assign_person]
  split <;> rfl

theorem assign_person_id (m : Mission) (role pid : String) :
    (m.assign_person role pid).mission_id = m.mission_id := by
  rw [Mission.assign_person]
  split <;> rfl

theorem overlapsB_assign_person (a m : Mission) (role pid : String) :
    overlapsB a (m.assign_person role pid) = overlapsB a m := by
  simp [overlapsB, assign_person_start, assign_person_end]

theorem applyCommit_no_overlaps (s : Scheduler) (c : CommitCmd)
    (h0 : no_overlaps s = true)
    (hg : ∀ st ∈ s.states, st.person.person_id = c.pid →
      s.has_overlap st c.mission = false) :
    no_overlaps (applyCommit s c) = true := by
  rw [no_overlaps, List.all_eq_true] at h0 ⊢
  intro x hx
  rcases List.mem_map.mp hx with ⟨st, hst, rfl⟩
  by_cases hc : (st.person.person_id == c.pid
      && !(st.is_assigned_to (c.mission.assign_person c.role c.pid))) = true
  · simp only [applyCommit, Scheduler.assign_to_mission] at hc ⊢
    rw [if_pos hc]
    simp only
    rw [pairwiseFreeB_append]
    refine ⟨h0 st hst, ?_⟩
    intro a ha
    have hpid : st.person.person_id = c.pid := by
      have := (Bool.and_eq_true_iff.mp hc).1
      simpa using this
    have hov := hg st hst hpid
    rw [Scheduler.has_overlap, List.any_eq_false] at hov
    have := hov a ha
    rw [overlapsB_assign_person, overlapsB_comm]
    simp only [overlapsB]
    simpa using this
  · simp only [applyCommit, Scheduler.assign_to_mission] at hc ⊢
    rw [if_neg (by simpa using hc)]
    exact h0 st hst

/-- Claim C5 (amended): after any sequence of commits in which every
commit first passes the overlap hard filter for the committed person,
a state with no overlapping assignments still has none. -/
theorem claim_C5 : ∀ (cmds : List CommitCmd) (s : Scheduler),
    guardedSeq s cmds → no_overlaps s = true → no_overlaps (runCommits s cmds) = true := by
  intro cmds
  induction cmds with
  | nil => intro s _ h0; exact h0
  | cons c cs ih =>
    intro s hg h0
    exact ih (applyCommit s c) hg.2 (applyCommit_no_overlaps s c h0 hg.1)

/-- Claim C5 counterexample: the claim as stated (for arbitrary commit
sequences) is false — `assign_to_mission` performs no overlap check, so
one unguarded commit creates an overlap from an overlap-free state. -/
theorem claim_C5_cex :
    no_overlaps cex5Sched = true
      ∧ no_overlaps (runCommits cex5Sched [cex5Cmd]) = false := by
  constructor
  · decide
  · decide

/-- Claim C5 witness: a concrete guarded commit sequence keeps the state
overlap-free, instantiating the amended claim. -/
theorem claim_C5_witness :
    guardedSeq cex5Sched [w5Cmd] ∧ no_overlaps cex5Sched = true
      ∧ no_overlaps (runCommits cex5Sched [w5Cmd]) = true := by
  have hg : guardedSeq cex5Sched [w5Cmd] := by
    refine ⟨?_, trivial⟩
    intro st hst _
    have hst' : st = ⟨wP, [cexA]⟩ := by
      simpa [cex5Sched] using hst
    rw [hst']
    decide
  exact ⟨hg, by decide, claim_C5 [w5Cmd] cex5Sched hg (by decide)⟩

theorem find?_addToRoleLists (role pid : String) :
    ∀ l : List (String × List String),
      (addToRoleLists role pid l).find? (fun rp => rp.1 == role)
        = (l.find? (fun rp => rp.1 == role)).map
            (fun rp => (rp.1, if rp.2.contains pid then rp.2 else rp.2 ++ [pid])) := by
  intro l
  induction l with
  | nil => rfl
  | cons a t ih =>
    have hmap : addToRoleLists role pid (a :: t)
        = (if (a.1 == role) = true then
              (a.1, if a.2.contains pid = true then a.2 else a.2 ++ [pid])
            else a) :: addToRoleLists role pid t := rfl
    rw [hmap]
    cases hb : a.1 == role
    · rw [if_neg (by simp [hb])]
      simp only [List.find?_cons, hb]
      exact ih
    · rw [if_pos (rfl : (true : Bool) = true)]
      simp only [List.find?_cons, hb]
      rfl

theorem roleList_assign_person (m : Mission) (role pid : String) :
    (m.assign_person role pid).roleList role
      = (if (m.roleList role).contains pid then m.roleList role
         else m.roleList role ++ [pid]) := by
  by_cases h : hasRoleKey m.assignments role = true
  · rw [Mission.assign_person, if_pos h]
    rw [Mission.roleList, Mission.roleList]
    simp only
    rw [find?_addToRoleLists]
    rw [hasRoleKey] at h
    obtain ⟨rp, hrp⟩ := Option.isSome_iff_exists.mp h
    rw [hrp]
    rfl
  · rw [Mission.assign_person, if_neg h]
    rw [Mission.roleList, Mission.roleList]
    simp only
    have hnone : m.assignments.find? (fun rp => rp.1 == role) = none := by
      rw [hasRoleKey] at h
      exact Option.not_isSome_iff_eq_none.mp (by simpa using h)
    rw [List.find?_append, hnone]
    simp [hnone, List.find?_cons]

theorem hasRoleKey_addToRoleLists (role pid : String) (l : List (String × List String)) :
    hasRoleKey (addToRoleLists role pid l) role = hasRoleKey l role := by
  rw [hasRoleKey, hasRoleKey, find?_addToRoleLists]
  cases l.find? (fun rp => rp.1 == role) <;> rfl

theorem addToRoleLists_idem (role pid : String) :
    ∀ l : List (String × List String),
      addToRoleLists role pid (addToRoleLists role pid l) = addToRoleLists role pid l := by
  intro l
  induction l with
  | nil => rfl
  | cons a t ih =>
    have hcontains :
        ((if a.2.contains pid = true then a.2 else a.2 ++ [pid]).contains pid) = true := by
      by_cases hc : a.2.contains pid = true
      · rw [if_pos hc]
        exact hc
      · rw [if_neg hc, contains_snoc]
        simp
    cases hb : a.1 == role
    · simp only [addToRoleLists, List.map_cons, hb, Bool.false_eq_true, if_false]
      simpa [addToRoleLists] using ih
    · simp only [addToRoleLists, List.map_cons, hb, if_true]
      simp only [hb, if_true, hcontains]
      simpa [addToRoleLists] using ih

theorem addToRoleLists_of_no_key (role pid : String) :
    ∀ l : List (String × List String),
      hasRoleKey l role = false → addToRoleLists role pid l = l := by
  intro l
  induction l with
  | nil => intro _; rfl
  | cons a t ih =>
    intro h
    cases hb : a.1 == role
    · have ht : hasRoleKey t role = false := by
        simp only [hasRoleKey, List.find?_cons, hb] at h ⊢
        exact h
      show (if (a.1 == role) = true then
          (a.1, if a.2.contains pid = true then a.2 else a.2 ++ [pid]) else a)
          :: addToRoleLists role pid t = a :: t
      rw [if_neg (by simp [hb]), ih ht]
    · exfalso
      simp only [hasRoleKey, List.find?_cons, hb] at h
      simp at h

theorem assign_person_assignments (m : Mission) (role pid : String) :
    (m.assign_person role pid).assignments
      = if hasRoleKey m.assignments role = true then addToRoleLists role pid m.assignments
        else m.assignments ++ [(role, [pid])] := by
  rw [Mission.assign_person]
  split <;> rfl

theorem assign_person_shape (m : Mission) (role pid : String) :
    ∃ a, m.assign_person role pid = { m with assignments := a } := by
  rw [Mission.assign_person]
  split
  · exact ⟨_, rfl⟩
  · exact ⟨_, rfl⟩

theorem assign_person_idem (m : Mission) (role pid : String) :
    (m.assign_person role pid).assign_person role pid = m.assign_person role pid := by
  have hass : ((m.assign_person role pid).assign_person role pid).assignments
      = (m.assign_person role pid).assignments := by
    rw [assign_person_assignments (m.assign_person role pid) role pid]
    by_cases h : hasRoleKey m.assignments role = true
    · have h2 : hasRoleKey (m.assign_person role pid).assignments role = true := by
        rw [assign_person_assignments, if_pos h, hasRoleKey_addToRoleLists]
        exact h
      rw [if_pos h2]
      rw [assign_person_assignments, if_pos h]
      exact addToRoleLists_idem role pid m.assignments
    · have hnone : m.assignments.find? (fun rp => rp.1 == role) = none := by
        rw [hasRoleKey] at h
        exact Option.not_isSome_iff_eq_none.mp (by simpa using h)
      have h2 : hasRoleKey (m.assign_person role pid).assignments role = true := by
        rw [assign_person_assignments, if_neg h, hasRoleKey, List.find?_append, hnone]
        simp [List.find?_cons]
      rw [if_pos h2]
      rw [assign_person_assignments, if_neg h]
      rw [addToRoleLists, List.map_append]
      rw [show List.map (fun rp =>
          if rp.1 == role then
            (rp.1, if rp.2.contains pid then rp.2 else rp.2 ++ [pid])
          else rp) m.assignments = addToRoleLists role pid m.assignments from rfl]
      rw [addToRoleLists_of_no_key role pid m.assignments (by simpa using h)]
      simp
  obtain ⟨a, ha⟩ := assign_person_shape (m.assign_person role pid) role pid
  have ha' : a = (m.assign_person role pid).assignments := by
    rw [ha] at hass
    exact hass
  rw [ha, ha']

theorem is_assigned_to_assign_person (st : PersonState) (m : Mission) (role pid : String) :
    st.is_assigned_to (m.assign_person role pid) = st.is_assigned_to m := by
  simp [PersonState.is_assigned_to, assign_person_id]

theorem is_assigned_to_snoc_self (st : PersonState) (m' : Mission) :
    PersonState.is_assigned_to
      { st with missions_assigned := st.missions_assigned ++ [m'] } m' = true := by
  simp [PersonState.is_assigned_to, List.any_append]

/-- Claim C6 (amended): committing appends the person to the mission's
role list exactly when not already in that list, appends the mission to
the person's state exactly when no mission with that id is already there
(each append has its own independent guard), and recommitting the same
person to the same role is idempotent. -/
theorem claim_C6 (s : Scheduler) (m : Mission) (role pid : String) :
    ((s.assign_to_mission m role pid).1.roleList role
        = (if (m.roleList role).contains pid then m.roleList role
           else m.roleList role ++ [pid]))
      ∧ (∀ st ∈ s.states, st.person.person_id ≠ pid →
          st ∈ (s.assign_to_mission m role pid).2.states)
      ∧ (∀ st ∈ s.states, st.person.person_id = pid →
          (st.is_assigned_to m = true → st ∈ (s.assign_to_mission m role pid).2.states)
          ∧ (st.is_assigned_to m = false →
              { st with missions_assigned :=
                  st.missions_assigned ++ [(s.assign_to_mission m role pid).1] }
                ∈ (s.assign_to_mission m role pid).2.states))
      ∧ ((s.assign_to_mission m role pid).2.assign_to_mission
            (s.assign_to_mission m role pid).1 role pid
          = s.assign_to_mission m role pid) := by
  refine ⟨roleList_assign_person m role pid, ?_, ?_, ?_⟩
  · intro st hst hne
    refine List.mem_map.mpr ⟨st, hst, ?_⟩
    refine if_neg ?_
    simp only [Bool.and_eq_true, beq_iff_eq]
    exact fun hcc => hne hcc.1
  · intro st hst heq
    constructor
    · intro hassigned
      refine List.mem_map.mpr ⟨st, hst, ?_⟩
      refine if_neg ?_
      simp only [Bool.and_eq_true, Bool.not_eq_true']
      rw [is_assigned_to_assign_person]
      exact fun hcc => by rw [hassigned] at hcc; exact Bool.noConfusion hcc.2
    · intro hnot
      refine List.mem_map.mpr ⟨st, hst, ?_⟩
      refine if_pos ?_
      simp only [Bool.and_eq_true, Bool.not_eq_true', beq_iff_eq]
      rw [is_assigned_to_assign_person]
      exact ⟨heq, hnot⟩
  · simp only [Scheduler.assign_to_mission]
    rw [assign_person_idem]
    congr 1
    congr 1
    apply mapIdOn
    intro st' hst'
    rcases List.mem_map.mp hst' with ⟨st, hst, rfl⟩
    by_cases hcond : (st.person.person_id == pid
        && !(st.is_assigned_to (m.assign_person role pid))) = true
    · rw [if_pos hcond]
      have hneg : ¬ (st.person.person_id == pid
          && !(PersonState.is_assigned_to
            { st with missions_assigned := st.missions_assigned ++ [m.assign_person role pid] }
            (m.assign_person role pid))) = true := by
        simp only [Bool.and_eq_true, Bool.not_eq_true']
        intro hcc
        have hsnoc := is_assigned_to_snoc_self st (m.assign_person role pid)
        rw [hsnoc] at hcc
        exact Bool.noConfusion hcc.2
      exact if_neg hneg
    · rw [if_neg hcond]
      exact if_neg hcond

/-- Claim C6 counterexample: committing a person to a second role of a
mission they already hold mutates the mission but leaves every person
state unchanged, so the two mutations do not occur "together or not at
all". -/
theorem claim_C6_cex :
    ((cex6Sched.assign_to_mission cex6M "commander" "p1").1 ≠ cex6M)
      ∧ ((cex6Sched.assign_to_mission cex6M "commander" "p1").2 = cex6Sched) := by
  constructor
  · decide
  · decide

/-- Claim C6 witness: the idempotence conjunct of the theorem at the
concrete two-role commit. -/
theorem claim_C6_witness :
    (cex6Sched.assign_to_mission cex6M "commander" "p1").2.assign_to_mission
        (cex6Sched.assign_to_mission cex6M "commander" "p1").1 "commander" "p1"
      = cex6Sched.assign_to_mission cex6M "commander" "p1" :=
  (claim_C6 cex6Sched cex6M "commander" "p1").2.2.2

end Sched

/-! # Claims about `src/generate_vacations.py` -/

namespace GenVac

theorem spreadLt_asymm (a b : SAttempt) (h : decide (a.spread < b.spread) = true) :
    decide (b.spread < a.spread) = false := by
  simp only [decide_eq_true_eq] at h
  simp only [decide_eq_false_iff_not]
  omega

theorem spreadLt_trans (a b c : SAttempt) (h1 : decide (a.spread < b.spread) = true)
    (h2 : decide (b.spread < c.spread) = true) : decide (a.spread < c.spread) = true := by
  simp only [decide_eq_true_eq] at h1 h2 ⊢
  omega

/-- Claim C3 (amended): among the successful trials of a pool,
`generate_schedule` returns a successful trial whose recorded field
spread — max minus min of per-person shift counts over the people with
unit 1, 2 or 3, the population the source uses — is minimal.  The claim
as written, over the carriers of the rotation-eligible aggregate role
(a strict subset of units 1–3), is refuted by the counterexample
below. -/
theorem claim_C3 (people : List Person)
    (results : List (Except String (List Shift × Bool))) (a : SAttempt)
    (ha : a ∈ collectSuccess people results) :
    ∃ chosen ∈ collectSuccess people results,
      generate_schedule people results = chosen.shifts ∧ chosen.spread ≤ a.spread := by
  have hmem : a ∈ stableSortBy (fun a b => decide (a.spread < b.spread))
      (collectSuccess people results) :=
    (mem_stableSortBy _ a _).mpr ha
  cases hs : stableSortBy (fun a b => decide (a.spread < b.spread))
      (collectSuccess people results) with
  | nil =>
    rw [hs] at hmem
    cases hmem
  | cons best rest =>
    refine ⟨best, ?_, ?_, ?_⟩
    · have : best ∈ stableSortBy (fun a b => decide (a.spread < b.spread))
          (collectSuccess people results) := by
        rw [hs]
        exact List.mem_cons_self best rest
      exact (mem_stableSortBy _ best _).mp this
    · simp only [generate_schedule]
      rw [hs]
    · have hp := pairwise_stableSortBy (fun (a b : SAttempt) => decide (a.spread < b.spread))
        spreadLt_asymm spreadLt_trans (collectSuccess people results)
      rw [hs] at hp hmem
      rcases List.mem_cons.mp hmem with rfl | hmem
      · exact le_refl _
      · have := (List.pairwise_cons.mp hp).1 a hmem
        simp only [decide_eq_false_iff_not] at this
        omega

/-- Claim C3 witness: a pool of two valid trials with spreads 1 and 0;
the selection picks a minimal one. -/
theorem claim_C3_witness :
    (⟨[c3Shift], 1⟩ : SAttempt) ∈ collectSuccess [c3PA, c3PB] c3Results
      ∧ ∃ chosen ∈ collectSuccess [c3PA, c3PB] c3Results,
          generate_schedule [c3PA, c3PB] c3Results = chosen.shifts
            ∧ chosen.spread ≤ (⟨[c3Shift], 1⟩ : SAttempt).spread :=
  ⟨by decide, claim_C3 [c3PA, c3PB] c3Results ⟨[c3Shift], 1⟩ (by decide)⟩

/-- Claim C3 counterexample: with the spread population taken as the
claim's words say — the carriers of the rotation-eligible aggregate role
`total_soldiers` — the claim is false of the code.  An officer of a
field unit belongs to the source's unit-based population but carries no
aggregate role; on a pool of two valid trials the source selects trial
two (unit spread 1 against 2), yet trial one, also in the pool, has a
strictly smaller role-carrier spread (0 against 1), so the returned
trial's role-carrier spread is not minimal. -/
theorem claim_C3_cex :
    (⟨c3xShiftsT1, fieldSpread c3xPeople c3xShiftsT1⟩ : SAttempt)
        ∈ collectSuccess c3xPeople c3xResults
      ∧ generate_schedule c3xPeople c3xResults = c3xShiftsT2
      ∧ roleFieldSpread c3xPeople c3xShiftsT1 < roleFieldSpread c3xPeople c3xShiftsT2 :=
  ⟨by decide, by decide, by decide⟩

/-- Claim C2 (code bug): with a per-weekday list requirement the trial
construction meets the day's target (one `soldier` shift on day 0), yet
`attempt_generate` raises `TypeError` in its validity sweep — the check
compares the day's count against the raw list — instead of comparing
against the weekday entry and never raising. -/
theorem claim_C2_bug :
    attempt_generate [c2P] [c2Req] [0, 1, 2] none 0 [] zeroRng = .error "TypeError"
      ∧ ((runTrial [c2P] [c2Req] [0, 1, 2] none 0 [] zeroRng).shifts.filter
          (fun s => s.date == 0 && s.role == "soldier")).length = 1 := by
  constructor
  · rfl
  · rfl

theorem mkExtraShifts_role (tag : String) (d : Int) (picked : List Person) :
    ∀ s ∈ mkExtraShifts tag d picked, s.role = "soldier_extra" := by
  intro s hs
  rcases List.mem_map.mp hs with ⟨p, _, rfl⟩
  rfl

theorem burstDay_extends (slack : List Person) (tmv mb : Int) (fs : FillState) (d : Int) :
    ∃ ext, (burstDay slack tmv mb fs d).cur = fs.cur ++ ext
      ∧ ∀ s ∈ ext, s.role = "soldier_extra" := by
  simp only [burstDay]
  split
  · exact ⟨mkExtraShifts "-soldier_extra_fill_burst-" d
      (collectAdds fs.vac fs.amap tmv d mb slack 0), rfl,
      mkExtraShifts_role _ _ _⟩
  · exact ⟨[], (List.append_nil _).symm, by simp⟩

theorem generalDay_extends (slack : List Person) (alat : Option Int) (lt2 : List Int)
    (tmv mb : Int) (fs : FillState) (d : Int) :
    ∃ ext, (generalDay slack alat lt2 tmv mb fs d).cur = fs.cur ++ ext
      ∧ ∀ s ∈ ext, s.role = "soldier_extra" := by
  simp only [generalDay]
  split
  · exact ⟨[], (List.append_nil _).symm, by simp⟩
  · split
    · exact ⟨[], (List.append_nil _).symm, by simp⟩
    · split
      · exact ⟨[], (List.append_nil _).symm, by simp⟩
      · split
        · exact ⟨mkExtraShifts "-soldier_extra_fill-" d
            (collectAdds fs.vac fs.amap tmv d (mb - boostedGet fs.boosted d) slack 0), rfl,
            mkExtraShifts_role _ _ _⟩
        · exact ⟨[], (List.append_nil _).symm, by simp⟩

/-- Claim C10: the slack-filling post pass only adds — the input schedule
is a prefix of the output, every added shift carries the role
`soldier_extra`, and a non-positive boost parameter returns the input
unchanged. -/
theorem claim_C10 (initial_shifts : List Shift) (people : List Person)
    (days_list : List Int) (alat_end_date : Option Int)
    (target_min_vacation max_boost_param : Int) :
    ∃ ext, fill_extra_shifts initial_shifts people days_list alat_end_date
          target_min_vacation max_boost_param = initial_shifts ++ ext
      ∧ (∀ s ∈ ext, s.role = "soldier_extra")
      ∧ (max_boost_param ≤ 0 →
          fill_extra_shifts initial_shifts people days_list alat_end_date
            target_min_vacation max_boost_param = initial_shifts) := by
  by_cases h : max_boost_param ≤ 0
  · refine ⟨[], ?_, by simp, fun _ => ?_⟩
    · rw [fill_extra_shifts, if_pos h, List.append_nil]
    · rw [fill_extra_shifts, if_pos h]
  · have hbody : ∃ ext,
        fill_extra_shifts initial_shifts people days_list alat_end_date
            target_min_vacation max_boost_param = initial_shifts ++ ext
          ∧ ∀ s ∈ ext, s.role = "soldier_extra" := by
      simp only [fill_extra_shifts, if_neg h]
      apply foldl_preserve (fun fs : FillState =>
        ∃ ext, fs.cur = initial_shifts ++ ext ∧ ∀ s ∈ ext, s.role = "soldier_extra")
      · intro fs d hP
        rcases hP with ⟨e1, he1, hr1⟩
        rcases generalDay_extends _ _ _ _ _ fs d with ⟨e2, he2, hr2⟩
        refine ⟨e1 ++ e2, ?_, ?_⟩
        · rw [he2, he1, List.append_assoc]
        · intro s hs
          rcases List.mem_append.mp hs with hs | hs
          · exact hr1 s hs
          · exact hr2 s hs
      · apply foldl_preserve (fun fs : FillState =>
          ∃ ext, fs.cur = initial_shifts ++ ext ∧ ∀ s ∈ ext, s.role = "soldier_extra")
        · intro fs wk hP
          simp only [burstWeek]
          apply foldl_preserve (fun fs : FillState =>
            ∃ ext, fs.cur = initial_shifts ++ ext ∧ ∀ s ∈ ext, s.role = "soldier_extra")
          · intro fs' d hP'
            rcases hP' with ⟨e1, he1, hr1⟩
            rcases burstDay_extends _ _ _ fs' d with ⟨e2, he2, hr2⟩
            refine ⟨e1 ++ e2, ?_, ?_⟩
            · rw [he2, he1, List.append_assoc]
            · intro s hs
              rcases List.mem_append.mp hs with hs | hs
              · exact hr1 s hs
              · exact hr2 s hs
          · exact hP
        · exact ⟨[], (List.append_nil _).symm, by simp⟩
    rcases hbody with ⟨ext, he, hr⟩
    exact ⟨ext, he, hr, fun hc => absurd hc h⟩

/-- Claim C10 witness: the theorem instantiated at a concrete input with
a non-positive boost parameter, where the post pass is the identity. -/
theorem claim_C10_witness :
    ∃ ext, fill_extra_shifts [c10Shift] [c3PA] [0, 1, 2] none 15 0 = [c10Shift] ++ ext
      ∧ (∀ s ∈ ext, s.role = "soldier_extra")
      ∧ ((0 : Int) ≤ 0 →
          fill_extra_shifts [c10Shift] [c3PA] [0, 1, 2] none 15 0 = [c10Shift]) :=
  claim_C10 [c10Shift] [c3PA] [0, 1, 2] none 15 0

/-! Structural lemmas about one trial of `attempt_generate`, used by the
per-day claims C7 and C9: every branch of the day loop only appends
shifts dated with the current day, and the `last_shift_date` map always
points at a shift present in the schedule. -/

theorem foldl_extends_generic {β : Type} (day : Int) (f : TrialState → β → TrialState)
    (hf : ∀ st x, ∃ s1 : Shift, (f st x).shifts = st.shifts ++ [s1] ∧ s1.date = day) :
    ∀ (l : List β) (st : TrialState),
      ∃ ext, (l.foldl f st).shifts = st.shifts ++ ext ∧ ∀ s ∈ ext, s.date = day := by
  intro l
  induction l with
  | nil => intro st; exact ⟨[], (List.append_nil _).symm, by simp⟩
  | cons x t ih =>
    intro st
    rcases hf st x with ⟨s1, hs1, hd1⟩
    rcases ih (f st x) with ⟨ext, hext, hdates⟩
    refine ⟨s1 :: ext, ?_, ?_⟩
    · rw [List.foldl_cons, hext, hs1, List.append_assoc]
      rfl
    · intro s hs
      rcases List.mem_cons.mp hs with rfl | hs
      · exact hd1
      · exact hdates s hs

theorem consist_step (shifts : List Shift) (last : String → Option Int) (k : String)
    (day : Int) (s1 : Shift) (hp : s1.person_id = k) (hd : s1.date = day)
    (h : ∀ q y, last q = some y → ∃ s ∈ shifts, s.person_id = q ∧ s.date = y) :
    ∀ q y, upd last k (some day) q = some y →
      ∃ s ∈ shifts ++ [s1], s.person_id = q ∧ s.date = y := by
  intro q y hq
  by_cases hqk : q = k
  · subst hqk
    have hy : day = y := by
      have := hq
      simp only [upd, if_pos rfl] at this
      exact Option.some.inj this
    exact ⟨s1, List.mem_append_right _ (List.mem_singleton_self s1), hp, hy ▸ hd⟩
  · have hlq : last q = some y := by
      simpa [upd, hqk] using hq
    rcases h q y hlq with ⟨s, hs, h1, h2⟩
    exact ⟨s, List.mem_append_left _ hs, h1, h2⟩

theorem workedYesterday_eq_false (ds : DayState) (day : Int) (pid : String)
    (h : ¬ ds.last_shift_date pid = some (day - 1)) :
    workedYesterday ds day pid = false := by
  rw [workedYesterday]
  cases hl : ds.last_shift_date pid with
  | none => rfl
  | some ld =>
    have hne : ld ≠ day - 1 := fun hh => h (by rw [hl, hh])
    simp only [beq_eq_false_iff_ne, ne_eq]
    omega

theorem scanPeople_fresh (ctx : DayCtx) (ds : DayState) (req : DailyReq) (i : Nat) :
    ∀ (ps : List Person) (acc : Option Choice × Nat),
      (∀ c, acc.1 = some c → ds.assigned_today.contains c.person.id = false) →
      ∀ c, (scanPeople ctx ds req i ps acc).1 = some c →
        ds.assigned_today.contains c.person.id = false := by
  intro ps
  induction ps with
  | nil => intro acc hacc c hc; exact hacc c hc
  | cons p t ih =>
    intro acc hacc c hc
    obtain ⟨best, ridx⟩ := acc
    rw [scanPeople] at hc
    by_cases h1 : ds.assigned_today.contains p.id = true
    · rw [if_pos h1] at hc
      exact ih (best, ridx) hacc c hc
    · rw [if_neg h1] at hc
      by_cases h2 : (!(p.roles.contains req.role)) = true
      · rw [if_pos h2] at hc
        exact ih (best, ridx) hacc c hc
      · rw [if_neg h2] at hc
        by_cases h3 : (!(workedYesterday ds ctx.day p.id)
            && p.unavailable_dates.contains (ctx.day + 1)) = true
        · rw [if_pos h3] at hc
          exact ih (best, ridx) hacc c hc
        · rw [if_neg h3] at hc
          refine ih _ ?_ c hc
          intro c' hc'
          cases best with
          | none =>
            simp only at hc'
            rw [← Option.some.inj hc']
            cases hcp : ds.assigned_today.contains p.id
            · rfl
            · exact absurd hcp h1
          | some b =>
            simp only at hc'
            by_cases hlt : Frac.ltB (scoreOf ctx ds p req.role (ctx.rng ridx)) b.score = true
            · rw [if_pos hlt] at hc'
              rw [← Option.some.inj hc']
              cases hcp : ds.assigned_today.contains p.id
              · rfl
              · exact absurd hcp h1
            · rw [if_neg hlt] at hc'
              have hbc : b = c' := Option.some.inj hc'
              rw [← hbc]
              exact hacc b rfl

theorem scanReqs_fresh (ctx : DayCtx) (ds : DayState) :
    ∀ (rs : List (Nat × DailyReq)) (acc : Option Choice × Nat),
      (∀ c, acc.1 = some c → ds.assigned_today.contains c.person.id = false) →
      ∀ c, (scanReqs ctx ds rs acc).1 = some c →
        ds.assigned_today.contains c.person.id = false := by
  intro rs
  induction rs with
  | nil => intro acc hacc c hc; exact hacc c hc
  | cons ir rest ih =>
    intro acc hacc c hc
    obtain ⟨i, req⟩ := ir
    rw [scanReqs] at hc
    by_cases h1 : req.remaining ≤ 0
    · rw [if_pos h1] at hc
      exact ih acc hacc c hc
    · rw [if_neg h1] at hc
      exact ih _ (fun c' hc' => scanPeople_fresh ctx ds req i ctx.available acc hacc c' hc')
        c hc

theorem scanAll_fresh (ctx : DayCtx) (ds : DayState) (c : Choice)
    (hc : (scanAll ctx ds).1 = some c) :
    ds.assigned_today.contains c.person.id = false := by
  rw [scanAll] at hc
  exact scanReqs_fresh ctx ds (enumFrom 0 ds.reqs) (none, ds.rng_idx)
    (fun c' hc' => Option.noConfusion hc') c hc

theorem fillLoop_extends (ctx : DayCtx) :
    ∀ (fuel : Nat) (ds : DayState),
      ∃ ext, (fillLoop ctx fuel ds).shifts = ds.shifts ++ ext
        ∧ (∀ s ∈ ext, s.date = ctx.day)
        ∧ (∀ q, ds.assigned_today.contains q = true →
            ext.filter (fun s => s.person_id == q) = [])
        ∧ (∀ q, ds.assigned_today.contains q = false →
            (ext.filter (fun s => s.person_id == q)).length ≤ 1) := by
  intro fuel
  induction fuel with
  | zero =>
    intro ds
    exact ⟨[], (List.append_nil _).symm, by simp, fun q _ => rfl, fun q _ => by simp⟩
  | succ fuel ih =>
    intro ds
    rcases hsc : scanAll ctx ds with ⟨opt, ridx⟩
    rw [fillLoop, hsc]
    cases opt with
    | none =>
      exact ⟨[], (List.append_nil _).symm, by simp, fun q _ => rfl, fun q _ => by simp⟩
    | some c =>
      have hfresh : ds.assigned_today.contains c.person.id = false :=
        scanAll_fresh ctx ds c (by rw [hsc])
      rcases ih (applyChoice ctx c { ds with rng_idx := ridx }) with
        ⟨ext, hext, hdates, hin, hout⟩
      obtain ⟨sc, hsh, hscd, hscp⟩ : ∃ sc : Shift,
          (applyChoice ctx c { ds with rng_idx := ridx }).shifts = ds.shifts ++ [sc]
            ∧ sc.date = ctx.day ∧ sc.person_id = c.person.id := ⟨_, rfl, rfl, rfl⟩
      have hass : (applyChoice ctx c { ds with rng_idx := ridx }).assigned_today
          = ds.assigned_today ++ [c.person.id] := rfl
      refine ⟨sc :: ext, ?_, ?_, ?_, ?_⟩
      · rw [hext, hsh, List.append_assoc]
        rfl
      · intro s hs
        rcases List.mem_cons.mp hs with rfl | hs
        · exact hscd
        · exact hdates s hs
      · intro q hq
        have hne : (sc.person_id == q) = false := by
          rw [hscp, beq_eq_false_iff_ne]
          intro heq
          rw [heq, hq] at hfresh
          exact Bool.noConfusion hfresh
        have hq' : (applyChoice ctx c { ds with rng_idx := ridx }).assigned_today.contains q
            = true := by
          rw [hass, contains_snoc, hq]
          rfl
        have hnil := hin q hq'
        simp [List.filter_cons, hne, hnil]
      · intro q hq
        by_cases hqc : c.person.id = q
        · have hq' : (applyChoice ctx c { ds with rng_idx := ridx }).assigned_today.contains q
              = true := by
            rw [hass, contains_snoc, hq, hqc]
            simp
          have hnil := hin q hq'
          have hmatch : (sc.person_id == q) = true := by
            rw [hscp]
            exact beq_iff_eq.mpr hqc
          simp [List.filter_cons, hmatch, hnil]
        · have hq' : (applyChoice ctx c { ds with rng_idx := ridx }).assigned_today.contains q
              = false := by
            rw [hass, contains_snoc, hq]
            simp [beq_eq_false_iff_ne]
            exact hqc
          have hle := hout q hq'
          have hne : (sc.person_id == q) = false := by
            rw [hscp]
            exact beq_eq_false_iff_ne.mpr hqc
          simpa [List.filter_cons, hne] using hle

theorem scanPeople_avoid (ctx : DayCtx) (ds : DayState) (req : DailyReq) (i : Nat)
    (pid : String) (hlast : ¬ ds.last_shift_date pid = some (ctx.day - 1))
    (hun : ∀ p ∈ ctx.available, p.id = pid →
      p.unavailable_dates.contains (ctx.day + 1) = true) :
    ∀ (ps : List Person) (acc : Option Choice × Nat),
      (∀ p ∈ ps, p ∈ ctx.available) →
      (∀ c, acc.1 = some c → c.person.id ≠ pid) →
      ∀ c, (scanPeople ctx ds req i ps acc).1 = some c → c.person.id ≠ pid := by
  intro ps
  induction ps with
  | nil => intro acc _ hacc c hc; exact hacc c hc
  | cons p t ih =>
    intro acc hsub hacc c hc
    obtain ⟨best, ridx⟩ := acc
    have hsubt : ∀ p' ∈ t, p' ∈ ctx.available :=
      fun p' hp' => hsub p' (List.mem_cons_of_mem p hp')
    rw [scanPeople] at hc
    by_cases h1 : ds.assigned_today.contains p.id = true
    · rw [if_pos h1] at hc
      exact ih (best, ridx) hsubt hacc c hc
    · rw [if_neg h1] at hc
      by_cases h2 : (!(p.roles.contains req.role)) = true
      · rw [if_pos h2] at hc
        exact ih (best, ridx) hsubt hacc c hc
      · rw [if_neg h2] at hc
        by_cases h3 : (!(workedYesterday ds ctx.day p.id)
            && p.unavailable_dates.contains (ctx.day + 1)) = true
        · rw [if_pos h3] at hc
          exact ih (best, ridx) hsubt hacc c hc
        · rw [if_neg h3] at hc
          have hpne : p.id ≠ pid := by
            intro hpe
            apply h3
            rw [Bool.and_eq_true]
            constructor
            · rw [hpe, workedYesterday_eq_false ds ctx.day pid hlast]
              rfl
            · exact hun p (hsub p (List.mem_cons_self p t)) hpe
          refine ih _ hsubt ?_ c hc
          intro c' hc'
          cases best with
          | none =>
            simp only at hc'
            rw [← Option.some.inj hc']
            exact hpne
          | some b =>
            simp only at hc'
            by_cases hlt : Frac.ltB (scoreOf ctx ds p req.role (ctx.rng ridx)) b.score = true
            · rw [if_pos hlt] at hc'
              rw [← Option.some.inj hc']
              exact hpne
            · rw [if_neg hlt] at hc'
              have hbc : b = c' := Option.some.inj hc'
              rw [← hbc]
              exact hacc b rfl

theorem scanReqs_avoid (ctx : DayCtx) (ds : DayState) (pid : String)
    (hlast : ¬ ds.last_shift_date pid = some (ctx.day - 1))
    (hun : ∀ p ∈ ctx.available, p.id = pid →
      p.unavailable_dates.contains (ctx.day + 1) = true) :
    ∀ (rs : List (Nat × DailyReq)) (acc : Option Choice × Nat),
      (∀ c, acc.1 = some c → c.person.id ≠ pid) →
      ∀ c, (scanReqs ctx ds rs acc).1 = some c → c.person.id ≠ pid := by
  intro rs
  induction rs with
  | nil => intro acc hacc c hc; exact hacc c hc
  | cons ir rest ih =>
    intro acc hacc c hc
    obtain ⟨i, req⟩ := ir
    rw [scanReqs] at hc
    by_cases h1 : req.remaining ≤ 0
    · rw [if_pos h1] at hc
      exact ih acc hacc c hc
    · rw [if_neg h1] at hc
      exact ih _
        (fun c' hc' => scanPeople_avoid ctx ds req i pid hlast hun ctx.available acc
          (fun p hp => hp) hacc c' hc')
        c hc

theorem scanAll_avoid (ctx : DayCtx) (ds : DayState) (pid : String)
    (hlast : ¬ ds.last_shift_date pid = some (ctx.day - 1))
    (hun : ∀ p ∈ ctx.available, p.id = pid →
      p.unavailable_dates.contains (ctx.day + 1) = true)
    (c : Choice) (hc : (scanAll ctx ds).1 = some c) : c.person.id ≠ pid := by
  rw [scanAll] at hc
  exact scanReqs_avoid ctx ds pid hlast hun (enumFrom 0 ds.reqs) (none, ds.rng_idx)
    (fun c' hc' => Option.noConfusion hc') c hc

theorem fillLoop_avoid (ctx : DayCtx) (pid : String)
    (hun : ∀ p ∈ ctx.available, p.id = pid →
      p.unavailable_dates.contains (ctx.day + 1) = true) :
    ∀ (fuel : Nat) (ds : DayState),
      ¬ ds.last_shift_date pid = some (ctx.day - 1) →
      ∃ ext, (fillLoop ctx fuel ds).shifts = ds.shifts ++ ext
        ∧ ext.filter (fun s => s.person_id == pid) = [] := by
  intro fuel
  induction fuel with
  | zero => intro ds _; exact ⟨[], (List.append_nil _).symm, rfl⟩
  | succ fuel ih =>
    intro ds hlast
    rcases hsc : scanAll ctx ds with ⟨opt, ridx⟩
    rw [fillLoop, hsc]
    cases opt with
    | none => exact ⟨[], (List.append_nil _).symm, rfl⟩
    | some c =>
      have hcp : c.person.id ≠ pid := scanAll_avoid ctx ds pid hlast hun c (by rw [hsc])
      have hlast' :
          ¬ (applyChoice ctx c { ds with rng_idx := ridx }).last_shift_date pid
            = some (ctx.day - 1) := by
        have hupd : (applyChoice ctx c { ds with rng_idx := ridx }).last_shift_date
            = upd ds.last_shift_date c.person.id (some ctx.day) := rfl
        rw [hupd, upd, if_neg (fun hh => hcp hh.symm)]
        exact hlast
      rcases ih (applyChoice ctx c { ds with rng_idx := ridx }) hlast' with ⟨ext, hext, hnil⟩
      obtain ⟨sc, hsh, hscp⟩ : ∃ sc : Shift,
          (applyChoice ctx c { ds with rng_idx := ridx }).shifts = ds.shifts ++ [sc]
            ∧ sc.person_id = c.person.id := ⟨_, rfl, rfl⟩
      refine ⟨sc :: ext, ?_, ?_⟩
      · rw [hext, hsh, List.append_assoc]
        rfl
      · have hne : (sc.person_id == pid) = false := by
          rw [hscp]
          exact beq_eq_false_iff_ne.mpr hcp
        simp [List.filter_cons, hne, hnil]

theorem normalDay_extends (people : List Person) (requirements : List ShiftRequirement)
    (days : List Int) (alat_end : Option Int) (boost : Int) (boost_dates : List Int)
    (rng : Nat → Frac) (day : Int) (st : TrialState) :
    ∃ ext, (normalDay people requirements days alat_end boost boost_dates rng day st).shifts
        = st.shifts ++ ext
      ∧ (∀ s ∈ ext, s.date = day)
      ∧ ∀ q, (ext.filter (fun s => s.person_id == q)).length ≤ 1 := by
  rcases fillLoop_extends
      (⟨days, day, alat_end, rng,
        people.filter (fun p => !(p.unavailable_dates.contains day))⟩ : DayCtx)
      (((mkDailyReqs people requirements day boost boost_dates).map
          (fun (r : DailyReq) => r.remaining)).foldl (· + ·) 0).toNat
      ⟨st.shifts, st.shift_counts, st.last_shift_date,
        fun pid => if (people.any (fun p => p.id == pid))
            && !(st.last_shift_date pid == some (day - 1)) then 0
          else st.work_streaks pid,
        st.role_counts, st.rng_idx,
        mkDailyReqs people requirements day boost boost_dates, [], []⟩
    with ⟨ext, h1, h2, _h3, h4⟩
  exact ⟨ext, h1, h2, fun q => h4 q rfl⟩

theorem normalDay_avoid (people : List Person) (requirements : List ShiftRequirement)
    (days : List Int) (alat_end : Option Int) (boost : Int) (boost_dates : List Int)
    (rng : Nat → Frac) (day : Int) (st : TrialState) (pid : String)
    (hlast : ¬ st.last_shift_date pid = some (day - 1))
    (hun : ∀ p ∈ people, p.id = pid → p.unavailable_dates.contains (day + 1) = true) :
    ∃ ext, (normalDay people requirements days alat_end boost boost_dates rng day st).shifts
        = st.shifts ++ ext
      ∧ ext.filter (fun s => s.person_id == pid) = [] := by
  rcases fillLoop_avoid
      (⟨days, day, alat_end, rng,
        people.filter (fun p => !(p.unavailable_dates.contains day))⟩ : DayCtx)
      pid
      (fun p hp hpe => hun p (List.mem_filter.mp hp).1 hpe)
      (((mkDailyReqs people requirements day boost boost_dates).map
          (fun (r : DailyReq) => r.remaining)).foldl (· + ·) 0).toNat
      ⟨st.shifts, st.shift_counts, st.last_shift_date,
        fun pid => if (people.any (fun p => p.id == pid))
            && !(st.last_shift_date pid == some (day - 1)) then 0
          else st.work_streaks pid,
        st.role_counts, st.rng_idx,
        mkDailyReqs people requirements day boost boost_dates, [], []⟩
      hlast
    with ⟨ext, h1, h2⟩
  exact ⟨ext, h1, h2⟩

theorem dayStep_extends (ppl : List Person) (reqs : List ShiftRequirement)
    (daysAll : List Int) (alat : Option Int) (b : Int) (bd : List Int) (rng : Nat → Frac)
    (st : TrialState) (day : Int) :
    ∃ ext, (dayStep ppl reqs daysAll alat b bd rng st day).shifts = st.shifts ++ ext
      ∧ ∀ s ∈ ext, s.date = day := by
  rw [dayStep]
  by_cases h1 : alatActive alat day = true
  · rw [if_pos h1, alatDay]
    exact foldl_extends_generic day (alatAssign day) (fun st' p => ⟨_, rfl, rfl⟩) _ st
  · rw [if_neg h1]
    by_cases h2 : daysAll.getLast? = some day
    · rw [if_pos h2]
      simp only [copyDay]
      exact foldl_extends_generic day _ (fun st' prev => ⟨_, rfl, rfl⟩) _ st
    · rw [if_neg h2]
      rcases normalDay_extends ppl reqs daysAll alat b bd rng day st with ⟨ext, ha, hb, _⟩
      exact ⟨ext, ha, hb⟩

theorem foldl_dayStep_extends (ppl : List Person) (reqs : List ShiftRequirement)
    (daysAll : List Int) (alat : Option Int) (b : Int) (bd : List Int) (rng : Nat → Frac) :
    ∀ (l : List Int) (st : TrialState),
      ∃ ext, (l.foldl (dayStep ppl reqs daysAll alat b bd rng) st).shifts
          = st.shifts ++ ext
        ∧ ∀ s ∈ ext, s.date ∈ l := by
  intro l
  induction l with
  | nil => intro st; exact ⟨[], (List.append_nil _).symm, by simp⟩
  | cons d t ih =>
    intro st
    rcases dayStep_extends ppl reqs daysAll alat b bd rng st d with ⟨e1, he1, hd1⟩
    rcases ih (dayStep ppl reqs daysAll alat b bd rng st d) with ⟨e2, he2, hd2⟩
    refine ⟨e1 ++ e2, ?_, ?_⟩
    · rw [List.foldl_cons, he2, he1, List.append_assoc]
    · intro s hs
      rcases List.mem_append.mp hs with hs | hs
      · exact List.mem_cons.mpr (Or.inl (hd1 s hs))
      · exact List.mem_cons.mpr (Or.inr (hd2 s hs))

theorem alatAssign_consist (day : Int) (st : TrialState) (p : Person)
    (h : ∀ q y, st.last_shift_date q = some y →
      ∃ s ∈ st.shifts, s.person_id = q ∧ s.date = y) :
    ∀ q y, (alatAssign day st p).last_shift_date q = some y →
      ∃ s ∈ (alatAssign day st p).shifts, s.person_id = q ∧ s.date = y := by
  intro q y hq
  exact consist_step st.shifts st.last_shift_date p.id day _ rfl rfl h q y hq

theorem fillLoop_consist (ctx : DayCtx) :
    ∀ (fuel : Nat) (ds : DayState),
      (∀ q y, ds.last_shift_date q = some y →
        ∃ s ∈ ds.shifts, s.person_id = q ∧ s.date = y) →
      ∀ q y, (fillLoop ctx fuel ds).last_shift_date q = some y →
        ∃ s ∈ (fillLoop ctx fuel ds).shifts, s.person_id = q ∧ s.date = y := by
  intro fuel
  induction fuel with
  | zero => intro ds h; exact h
  | succ fuel ih =>
    intro ds h
    rcases hsc : scanAll ctx ds with ⟨opt, ridx⟩
    rw [fillLoop, hsc]
    cases opt with
    | none => exact h
    | some c =>
      apply ih
      intro q y hq
      exact consist_step ds.shifts ds.last_shift_date c.person.id ctx.day _ rfl rfl h q y hq

theorem normalDay_consist (people : List Person) (requirements : List ShiftRequirement)
    (days : List Int) (alat_end : Option Int) (boost : Int) (boost_dates : List Int)
    (rng : Nat → Frac) (day : Int) (st : TrialState)
    (h : ∀ q y, st.last_shift_date q = some y →
      ∃ s ∈ st.shifts, s.person_id = q ∧ s.date = y) :
    ∀ q y,
      (normalDay people requirements days alat_end boost boost_dates rng day st).last_shift_date q
          = some y →
        ∃ s ∈ (normalDay people requirements days alat_end boost boost_dates rng day st).shifts,
          s.person_id = q ∧ s.date = y := by
  exact fillLoop_consist
    (⟨days, day, alat_end, rng,
      people.filter (fun p => !(p.unavailable_dates.contains day))⟩ : DayCtx)
    (((mkDailyReqs people requirements day boost boost_dates).map
        (fun (r : DailyReq) => r.remaining)).foldl (· + ·) 0).toNat
    ⟨st.shifts, st.shift_counts, st.last_shift_date,
      fun pid => if (people.any (fun p => p.id == pid))
          && !(st.last_shift_date pid == some (day - 1)) then 0
        else st.work_streaks pid,
      st.role_counts, st.rng_idx,
      mkDailyReqs people requirements day boost boost_dates, [], []⟩
    h

theorem dayStep_consist (ppl : List Person) (reqs : List ShiftRequirement)
    (daysAll : List Int) (alat : Option Int) (b : Int) (bd : List Int) (rng : Nat → Frac)
    (st : TrialState) (day : Int)
    (h : ∀ q y, st.last_shift_date q = some y →
      ∃ s ∈ st.shifts, s.person_id = q ∧ s.date = y) :
    ∀ q y, (dayStep ppl reqs daysAll alat b bd rng st day).last_shift_date q = some y →
      ∃ s ∈ (dayStep ppl reqs daysAll alat b bd rng st day).shifts,
        s.person_id = q ∧ s.date = y := by
  rw [dayStep]
  by_cases h1 : alatActive alat day = true
  · rw [if_pos h1, alatDay]
    refine foldl_preserve (fun st' : TrialState =>
      ∀ q y, st'.last_shift_date q = some y →
        ∃ s ∈ st'.shifts, s.person_id = q ∧ s.date = y)
      (alatAssign day) ?_ _ st h
    intro st' p hp
    exact alatAssign_consist day st' p hp
  · rw [if_neg h1]
    by_cases h2 : daysAll.getLast? = some day
    · rw [if_pos h2]
      simp only [copyDay]
      refine foldl_preserve (fun st' : TrialState =>
        ∀ q y, st'.last_shift_date q = some y →
          ∃ s ∈ st'.shifts, s.person_id = q ∧ s.date = y)
        _ ?_ _ st h
      intro st' prev hp q y hq
      exact consist_step st'.shifts st'.last_shift_date prev.person_id day
        ⟨dstr day ++ "-" ++ prev.role ++ "-copy-" ++ prev.person_id, day, prev.role,
          prev.person_id⟩
        rfl rfl hp q y hq
    · rw [if_neg h2]
      exact normalDay_consist ppl reqs daysAll alat b bd rng day st h

theorem foldl_dayStep_consist (ppl : List Person) (reqs : List ShiftRequirement)
    (daysAll : List Int) (alat : Option Int) (b : Int) (bd : List Int) (rng : Nat → Frac) :
    ∀ (l : List Int) (st : TrialState),
      (∀ q y, st.last_shift_date q = some y →
        ∃ s ∈ st.shifts, s.person_id = q ∧ s.date = y) →
      ∀ q y, (l.foldl (dayStep ppl reqs daysAll alat b bd rng) st).last_shift_date q = some y →
        ∃ s ∈ (l.foldl (dayStep ppl reqs daysAll alat b bd rng) st).shifts,
          s.person_id = q ∧ s.date = y := by
  intro l
  exact foldl_preserve (fun st' : TrialState =>
      ∀ q y, st'.last_shift_date q = some y →
        ∃ s ∈ st'.shifts, s.person_id = q ∧ s.date = y)
    (dayStep ppl reqs daysAll alat b bd rng)
    (fun st' d hp => dayStep_consist ppl reqs daysAll alat b bd rng st' d hp) l

/-- Claim C9: in a trial of the rotation generator, on a normal
generation day (outside the ALAT period and not the terminal copied
day), no person receives more than one shift dated with that day. -/
theorem claim_C9 (people : List Person) (requirements : List ShiftRequirement)
    (days : List Int) (alat_end : Option Int) (boost : Int) (boost_dates : List Int)
    (rng : Nat → Frac) (d : Int) (pid : String)
    (hnd : days.Nodup) (hd : d ∈ days)
    (halat : alatActive alat_end d = false)
    (hlast : ¬ days.getLast? = some d) :
    ((runTrial people requirements days alat_end boost boost_dates rng).shifts.filter
        (fun s => s.date == d && s.person_id == pid)).length ≤ 1 := by
  obtain ⟨pre, post, hsplit⟩ := List.append_of_mem hd
  rw [hsplit] at hnd hlast ⊢
  rcases List.nodup_append.mp hnd with ⟨_, hnc, hdisj⟩
  have hdpre : d ∉ pre := fun hmem => hdisj hmem (List.mem_cons_self d post)
  rw [runTrial, List.foldl_append, List.foldl_cons]
  have hstep : dayStep people requirements (pre ++ d :: post) alat_end boost boost_dates rng
      (pre.foldl (dayStep people requirements (pre ++ d :: post) alat_end boost boost_dates rng)
        initState) d
      = normalDay people requirements (pre ++ d :: post) alat_end boost boost_dates rng d
        (pre.foldl (dayStep people requirements (pre ++ d :: post) alat_end boost boost_dates rng)
          initState) := by
    rw [dayStep, if_neg (by simp [halat]), if_neg hlast]
  rcases foldl_dayStep_extends people requirements (pre ++ d :: post) alat_end boost
      boost_dates rng pre initState with ⟨e0, he0, hd0⟩
  rcases normalDay_extends people requirements (pre ++ d :: post) alat_end boost
      boost_dates rng d
      (pre.foldl (dayStep people requirements (pre ++ d :: post) alat_end boost boost_dates rng)
        initState) with ⟨e1, he1, hdate1, hone⟩
  rw [hstep]
  rcases foldl_dayStep_extends people requirements (pre ++ d :: post) alat_end boost
      boost_dates rng post
      (normalDay people requirements (pre ++ d :: post) alat_end boost boost_dates rng d
        (pre.foldl (dayStep people requirements (pre ++ d :: post) alat_end boost boost_dates rng)
          initState)) with ⟨e2, he2, hd2⟩
  rw [he2, he1, he0]
  have hfE : (List.filter (fun s => s.date == d && s.person_id == pid)
      (initState.shifts ++ e0)) = [] := by
    rw [List.filter_eq_nil_iff]
    intro s hs
    rcases List.mem_append.mp hs with h | h
    · simp [initState] at h
    · intro hF
      have hdd : s.date = d := by
        have := (Bool.and_eq_true_iff.mp hF).1
        exact beq_iff_eq.mp this
      exact hdpre (hdd ▸ hd0 s h)
  have hf2 : (List.filter (fun s => s.date == d && s.person_id == pid) e2) = [] := by
    rw [List.filter_eq_nil_iff]
    intro s hs hF
    have hdd : s.date = d := by
      have := (Bool.and_eq_true_iff.mp hF).1
      exact beq_iff_eq.mp this
    exact (List.nodup_cons.mp hnc).1 (hdd ▸ hd2 s hs)
  have hf1 : (List.filter (fun s => s.date == d && s.person_id == pid) e1)
      = List.filter (fun s => s.person_id == pid) e1 := by
    apply List.filter_congr
    intro s hs
    have : (s.date == d) = true := beq_iff_eq.mpr (hdate1 s hs)
    rw [this]
    simp
  rw [List.filter_append, List.filter_append, hfE, hf2, hf1]
  simpa using hone pid

/-- Claim C7: on a normal generation day of a trial, a person who did
not work the previous day and is unavailable the following day is never
assigned that day (the "sandwich" exclusion is outright, for every
role). -/
theorem claim_C7 (people : List Person) (requirements : List ShiftRequirement)
    (days : List Int) (alat_end : Option Int) (boost : Int) (boost_dates : List Int)
    (rng : Nat → Frac) (d : Int) (pid : String)
    (hnd : days.Nodup) (hd : d ∈ days)
    (halat : alatActive alat_end d = false)
    (hlast : ¬ days.getLast? = some d)
    (hprev : (runTrial people requirements days alat_end boost boost_dates rng).shifts.filter
        (fun s => s.date == d - 1 && s.person_id == pid) = [])
    (hun : ∀ p ∈ people, p.id = pid →
      p.unavailable_dates.contains (d + 1) = true) :
    (runTrial people requirements days alat_end boost boost_dates rng).shifts.filter
        (fun s => s.date == d && s.person_id == pid) = [] := by
  obtain ⟨pre, post, hsplit⟩ := List.append_of_mem hd
  rw [hsplit] at hnd hlast hprev ⊢
  rcases List.nodup_append.mp hnd with ⟨_, hnc, hdisj⟩
  have hdpre : d ∉ pre := fun hmem => hdisj hmem (List.mem_cons_self d post)
  rw [runTrial, List.foldl_append, List.foldl_cons] at hprev ⊢
  have hstep : dayStep people requirements (pre ++ d :: post) alat_end boost boost_dates rng
      (pre.foldl (dayStep people requirements (pre ++ d :: post) alat_end boost boost_dates rng)
        initState) d
      = normalDay people requirements (pre ++ d :: post) alat_end boost boost_dates rng d
        (pre.foldl (dayStep people requirements (pre ++ d :: post) alat_end boost boost_dates rng)
          initState) := by
    rw [dayStep, if_neg (by simp [halat]), if_neg hlast]
  rw [hstep] at hprev ⊢
  have hlastE : ¬ (pre.foldl
      (dayStep people requirements (pre ++ d :: post) alat_end boost boost_dates rng)
      initState).last_shift_date pid = some (d - 1) := by
    intro hsome
    have hcons := foldl_dayStep_consist people requirements (pre ++ d :: post) alat_end boost
      boost_dates rng pre initState
      (fun q y h => absurd h (by simp [initState]))
      pid (d - 1) hsome
    rcases hcons with ⟨s, hsmem, hsp, hsd⟩
    rcases normalDay_extends people requirements (pre ++ d :: post) alat_end boost
        boost_dates rng d
        (pre.foldl (dayStep people requirements (pre ++ d :: post) alat_end boost boost_dates
          rng) initState) with ⟨e1, he1, _, _⟩
    rcases foldl_dayStep_extends people requirements (pre ++ d :: post) alat_end boost
        boost_dates rng post
        (normalDay people requirements (pre ++ d :: post) alat_end boost boost_dates rng d
          (pre.foldl (dayStep people requirements (pre ++ d :: post) alat_end boost boost_dates
            rng) initState)) with ⟨e2, he2, _⟩
    have hsfinal : s ∈ (post.foldl
        (dayStep people requirements (pre ++ d :: post) alat_end boost boost_dates rng)
        (normalDay people requirements (pre ++ d :: post) alat_end boost boost_dates rng d
          (pre.foldl (dayStep people requirements (pre ++ d :: post) alat_end boost boost_dates
            rng) initState))).shifts := by
      rw [he2, he1]
      exact List.mem_append_left _ (List.mem_append_left _ hsmem)
    have hforall := List.filter_eq_nil_iff.mp hprev s hsfinal
    apply hforall
    rw [Bool.and_eq_true_iff]
    exact ⟨beq_iff_eq.mpr hsd, beq_iff_eq.mpr hsp⟩
  rcases normalDay_avoid people requirements (pre ++ d :: post) alat_end boost boost_dates rng d
      (pre.foldl (dayStep people requirements (pre ++ d :: post) alat_end boost boost_dates rng)
        initState) pid hlastE hun with ⟨e1, he1, hpid1⟩
  rcases foldl_dayStep_extends people requirements (pre ++ d :: post) alat_end boost
      boost_dates rng pre initState with ⟨e0, he0, hd0⟩
  rcases foldl_dayStep_extends people requirements (pre ++ d :: post) alat_end boost
      boost_dates rng post
      (normalDay people requirements (pre ++ d :: post) alat_end boost boost_dates rng d
        (pre.foldl (dayStep people requirements (pre ++ d :: post) alat_end boost boost_dates
          rng) initState)) with ⟨e2, he2, hd2⟩
  rw [he2, he1, he0]
  rw [List.filter_append, List.filter_append, List.filter_eq_nil_iff.mpr, List.filter_eq_nil_iff.mpr,
    List.filter_eq_nil_iff.mpr]
  · rfl
  · intro s hs hF
    have hdd : s.date = d := by
      have := (Bool.and_eq_true_iff.mp hF).1
      exact beq_iff_eq.mp this
    exact (List.nodup_cons.mp hnc).1 (hdd ▸ hd2 s hs)
  · intro s hs hF
    have hp := (Bool.and_eq_true_iff.mp hF).2
    exact absurd hp (by
      have := List.filter_eq_nil_iff.mp hpid1 s hs
      simpa using this)
  · intro s hs hF
    rcases List.mem_append.mp hs with h | h
    · simp [initState] at h
    · have hdd : s.date = d := by
        have := (Bool.and_eq_true_iff.mp hF).1
        exact beq_iff_eq.mp this
      exact hdpre (hdd ▸ hd0 s h)

/-- Claim C9 witness: two interchangeable soldiers, a two-per-day
requirement, day 0 of a three-day range; person `a` holds at most one
day-0 shift. -/
theorem claim_C9_witness :
    ([0, 1, 2] : List Int).Nodup ∧ (0 : Int) ∈ ([0, 1, 2] : List Int)
      ∧ alatActive none 0 = false
      ∧ ¬ ([0, 1, 2] : List Int).getLast? = some 0
      ∧ ((runTrial [c9PA, c9PB] [c9Req] [0, 1, 2] none 0 [] zeroRng).shifts.filter
          (fun s => s.date == 0 && s.person_id == "a")).length ≤ 1 :=
  ⟨by decide, by decide, rfl, by decide,
    claim_C9 [c9PA, c9PB] [c9Req] [0, 1, 2] none 0 [] zeroRng 0 "a"
      (by decide) (by decide) rfl (by decide)⟩

/-- Claim C7 witness: person `a` is unavailable on days 0 and 2 of a
four-day range; on day 1 they did not work the previous day and are
unavailable the next day, so they are never assigned on day 1 (person
`b` covers the requirement). -/
theorem claim_C7_witness :
    ((runTrial [c7P, c7PB] [c7Req] [0, 1, 2, 3] none 0 [] zeroRng).shifts.filter
        (fun s => s.date == 1 - 1 && s.person_id == "a") = [])
      ∧ (∀ p ∈ [c7P, c7PB], p.id = "a" →
          p.unavailable_dates.contains (1 + 1) = true)
      ∧ (runTrial [c7P, c7PB] [c7Req] [0, 1, 2, 3] none 0 [] zeroRng).shifts.filter
          (fun s => s.date == 1 && s.person_id == "a") = [] :=
  ⟨by decide, by decide,
    claim_C7 [c7P, c7PB] [c7Req] [0, 1, 2, 3] none 0 [] zeroRng 1 "a"
      (by decide) (by decide) rfl (by decide) (by decide) (by decide)⟩

end GenVac
